import Mathlib

/-!
Verification of the `up` deployment tool (git.sr.ht/~egtann/up).

This file shallowly embeds the core of the repository in Lean 4:

* the Upfile tokenizer (`lexText` / `lexSpace`),
* the Upfile parser (`parse` and its helpers from parser.go),
* the variable-substitution engine (`substituteVariables`, including the
  semantics of Go's `strings.Replacer` for nonempty patterns),
* the batch partitioner (`makeBatches` / `appendToBatch`),
* the execution orchestrator (`runExecIfs` / `runExec` / `runCmd`), with the
  external shell modelled as an oracle `sh : String → Bool` (true = exit 0)
  and with an explicit trace of the shell command lines that were executed.

Go maps are modelled as association lists; the nondeterministic iteration
order of a Go map is captured by quantifying over permutations of those
lists.  Concurrent fan-out over the servers of a group is modelled as a
fold in server order: the per-server results are independent of each other,
only the order in which the channel delivers them is nondeterministic, and
no claim below depends on that order beyond what is stated.
-/

set_option autoImplicit false

namespace Up

/-! ### Tokens (lexer.go, current revision)

The Go lexer emits tokens over an unbuffered channel from a separate
goroutine.  The token stream is fully determined by the input text, so we
embed it as a pure function from the input to the list of emitted tokens.
-/

/-- Token kinds, mirroring the `tokenType` constants of the current lexer
(error, EOF, space run, tab, newline, plain text, comment, keyword
delimiter, and the reserved keyword `inventory`). -/
inductive tokenType where
  | error : tokenType
  | eof : tokenType
  | space : tokenType
  | tab : tokenType
  | newline : tokenType
  | text : tokenType
  | comment : tokenType
  | keyword : tokenType
  | inventory : tokenType
  deriving DecidableEq, Repr

/-- Numeric code of a token type, as used by the parser's
`fmt.Errorf("unexpected %d %q", ...)` messages (the Go constants are
`iota`-numbered in declaration order). -/
def tokenType.code : tokenType → Nat
  | .error => 0
  | .eof => 1
  | .space => 2
  | .tab => 3
  | .newline => 4
  | .text => 5
  | .comment => 6
  | .keyword => 7
  | .inventory => 8

/-- A lexed token: its kind and its raw text.  (The Go struct also has a
`pos` field, but `emit` never fills it in, so it carries no information.) -/
structure token where
  typ : tokenType
  val : String
  deriving DecidableEq, Repr

/-- The token a reader of a closed Go channel observes: the zero value of
the `token` struct, whose `typ` is `tokenError` (= 0). -/
def zeroToken : token := ⟨.error, ""⟩

theorem dropWhile_length_le {α : Type} (p : α → Bool) (l : List α) :
    (l.dropWhile p).length ≤ l.length := by
  induction l with
  | nil => simp [List.dropWhile]
  | cons a l ih =>
    by_cases h : p a <;> simp [List.dropWhile, h] <;> omega

/-- One step of `lexText` from the current lexer: `pending` is the slice
`input[start:pos]` accumulated so far and `rest` is `input[pos:]`.  The
branches appear in the order of the Go `switch` cases (eof, '#',
pending = "inventory", end of line, ' ', '\t', default).  `lexSpace`'s loop
(`for l.peek() == ' ' { l.next() }; l.emit(tokenSpace)`) is inlined as a
`takeWhile`/`dropWhile` on the run of spaces. -/
def lexText (pending : List Char) (rest : List Char) : List token :=
  match rest with
  | [] =>
    (if pending ≠ [] then [⟨.text, String.mk pending⟩] else []) ++ [⟨.eof, ""⟩]
  | r :: rest' =>
    if r = '#' then
      ⟨.comment, String.mk (pending ++ [r])⟩ :: lexText [] rest'
    else if pending = "inventory".toList then
      ⟨.inventory, "inventory"⟩ :: lexText [] (r :: rest')
    else if r = '\r' ∨ r = '\n' then
      (if pending ≠ [] then [⟨.text, String.mk pending⟩] else []) ++
        ⟨.newline, String.mk [r]⟩ :: lexText [] rest'
    else if r = ' ' then
      (if pending ≠ [] then [⟨.text, String.mk pending⟩] else []) ++
        ⟨.space, String.mk ((r :: rest').takeWhile (· = ' '))⟩ ::
          lexText [] ((r :: rest').dropWhile (· = ' '))
    else if r = '\t' then
      ⟨.tab, String.mk (pending ++ [r])⟩ :: lexText [] rest'
    else
      lexText (pending ++ [r]) rest'
  termination_by (rest.length, if pending = "inventory".toList then 1 else 0)
  decreasing_by
  · simp; omega
  · simp_all
    exact Prod.Lex.right _ (by omega)
  · simp; omega
  · simp only [List.dropWhile]
    have := dropWhile_length_le (fun c => decide (c = ' ')) rest'
    simp_all
    omega
  · simp; omega
  · simp; omega

/-- Tokenize a whole Upfile: run the lexer state machine from `lexText`
with an empty pending slice over the full input. -/
def tokenize (input : String) : List token := lexText [] input.toList

/-! ### The command table (up.go) and the parser (parser.go)

The parser pulls tokens one at a time from the lexer's channel; we embed
the channel as the `List token` produced by `tokenize`, with the zero
token standing for a read from the closed channel.  Go maps become
association lists (`List (String × _)`), with `mapInsert` mirroring a Go
map assignment.
-/

/-- A named command: `ExecIfs` are the guard command names, `Execs` the
shell command lines of the body (struct `Cmd` in up.go). -/
structure Cmd where
  ExecIfs : List String
  Execs : List String
  deriving DecidableEq, Repr

/-- A parsed Upfile (struct `Config` in up.go): the command table, the
legacy `inventory` sections, and the name of the first command parsed. -/
structure Config where
  Commands : List (String × Cmd)
  Inventory : List (String × List String)
  DefaultCommand : String
  deriving DecidableEq, Repr

/-- Go map assignment `m[k] = v`: replace the entry if the key is present,
otherwise add a new entry. -/
def mapInsert {β : Type} (m : List (String × β)) (k : String) (v : β) :
    List (String × β) :=
  if (m.lookup k).isSome then m.map (fun p => if p.1 = k then (k, v) else p)
  else m ++ [(k, v)]

/-- Go's `%q` verb on the strings appearing in this development (plain
printable text): wrap in double quotes. -/
def goQuote (s : String) : String := "\"" ++ s ++ "\""

/-- The parser's `nextNonSpace`: pull tokens until one is not a space
token.  On an exhausted stream the closed channel yields the zero token. -/
def nextNonSpace : List token → token × List token
  | [] => (zeroToken, [])
  | t :: ts => if t.typ = tokenType.space then nextNonSpace ts else (t, ts)

/-- First loop of `commandControl`: collect the guard names (`ExecIfs`) of
a command header line, up to and including the terminating newline.  The
cases mirror the Go `switch` (text, newline, space, EOF, default). -/
def collectExecIfs : List token → Except String (List String × List token)
  | [] =>
    .error ("unexpected command token " ++ zeroToken.val ++ " (" ++
      toString zeroToken.typ.code ++ ")")
  | t :: ts =>
    match t.typ with
    | .text =>
      match collectExecIfs ts with
      | .error e => .error e
      | .ok r => .ok (t.val :: r.1, r.2)
    | .newline => .ok ([], ts)
    | .space => collectExecIfs ts
    | .eof => .error "unexpected eof in command line"
    | _ =>
      .error ("unexpected command token " ++ t.val ++ " (" ++
        toString t.typ.code ++ ")")

/-- Second loop of `commandControl`: collect the tab-indented body lines of
a command.  Returns the collected `Execs`, the token on which the loop
broke (handed back to `nextControl`), and the remaining stream.  The
`lexer.backup()` after peeking a token in the double-tab case is embedded
as not consuming the peeked token (the deterministic intent of the Go
code; the Go `backup` is a rune-level operation on the producer). -/
def collectBody (indented : Bool) (line : String) (execs : List String) :
    List token → Except String (List String × token × List token)
  | [] =>
    .error ("unexpected " ++ toString zeroToken.typ.code ++ " " ++
      goQuote zeroToken.val)
  | t :: ts =>
    match t.typ with
    | .newline =>
      collectBody false "" (if line ≠ "" then execs ++ [line] else execs) ts
    | .tab =>
      if indented then
        match ts with
        | [] => .error "unexpected double indent"
        | t2 :: _ =>
          if t2.typ = tokenType.newline then
            -- Ignore extra whitespace at end of lines
            collectBody indented line execs ts
          else .error "unexpected double indent"
      else collectBody true line execs ts
    | .text => if !indented then .ok (execs, t, ts) else collectBody indented (line ++ t.val) execs ts
    | .space => if !indented then .ok (execs, t, ts) else collectBody indented (line ++ t.val) execs ts
    | .eof => .ok (execs, t, ts)
    | _ =>
      .error ("unexpected " ++ toString t.typ.code ++ " " ++ goQuote t.val)

/-- Body loop of `inventoryControl`: collect indented host entries until an
unindented text token or an `inventory` keyword breaks the loop.  Note the
Go switch has no space case, so a space token hits the default error. -/
def collectInv (indented : Bool) (inv : List String) :
    List token → Except String (List String × token × List token)
  | [] => .error ("unexpected 1 " ++ zeroToken.val)
  | t :: ts =>
    match t.typ with
    | .newline => collectInv false inv ts
    | .tab =>
      if indented then .error "unexpected double indent"
      else collectInv true inv ts
    | .text =>
      if !indented then .ok (inv, t, ts)
      else collectInv indented (inv ++ [t.val]) ts
    | .inventory => .ok (inv, t, ts)
    | _ => .error ("unexpected 1 " ++ t.val)

theorem nextNonSpace_length_le (ts : List token) :
    (nextNonSpace ts).2.length ≤ ts.length := by
  induction ts with
  | nil => simp [nextNonSpace]
  | cons t ts ih =>
    by_cases h : t.typ = tokenType.space <;> simp [nextNonSpace, h] <;> omega

theorem collectExecIfs_length {ts : List token}
    {r : List String × List token} (h : collectExecIfs ts = .ok r) :
    r.2.length < ts.length := by
  induction ts generalizing r with
  | nil => simp [collectExecIfs] at h
  | cons t ts ih =>
    cases htyp : t.typ <;> simp [collectExecIfs, htyp] at h
    case text =>
      rcases hrec : collectExecIfs ts with e | r' <;> rw [hrec] at h
      · simp at h
      · simp at h
        have := ih hrec
        subst h
        simp only [List.length_cons] at this ⊢
        omega
    case newline => subst h; simp
    case space => have := ih h; simp only [List.length_cons] at this ⊢; omega

theorem collectBody_length {indented : Bool} {line : String}
    {execs : List String} {ts : List token}
    {r : List String × token × List token}
    (h : collectBody indented line execs ts = .ok r) :
    r.2.2.length < ts.length := by
  induction ts generalizing indented line execs r with
  | nil => simp [collectBody] at h
  | cons t ts ih =>
    cases htyp : t.typ <;> simp [collectBody, htyp] at h
    case newline => have := ih h; simp only [List.length_cons] at this ⊢; omega
    case tab =>
      by_cases hi : indented <;> simp [hi] at h
      · rcases ts with _ | ⟨t2, ts2⟩
        · simp at h
        · by_cases h2 : t2.typ = tokenType.newline <;> simp [h2] at h
          have := ih h
          simp only [List.length_cons] at this ⊢; omega
      · have := ih h; simp only [List.length_cons] at this ⊢; omega
    case text =>
      by_cases hi : indented <;> simp [hi] at h
      · have := ih h; simp only [List.length_cons] at this ⊢; omega
      · subst h; simp
    case space =>
      by_cases hi : indented <;> simp [hi] at h
      · have := ih h; simp only [List.length_cons] at this ⊢; omega
      · subst h; simp
    case eof => subst h; simp

theorem collectInv_length {indented : Bool} {inv : List String}
    {ts : List token} {r : List String × token × List token}
    (h : collectInv indented inv ts = .ok r) :
    r.2.2.length < ts.length := by
  induction ts generalizing indented inv r with
  | nil => simp [collectInv] at h
  | cons t ts ih =>
    cases htyp : t.typ <;> simp [collectInv, htyp] at h
    case newline => have := ih h; simp only [List.length_cons] at this ⊢; omega
    case tab =>
      by_cases hi : indented <;> simp [hi] at h
      have := ih h; simp only [List.length_cons] at this ⊢; omega
    case text =>
      by_cases hi : indented <;> simp [hi] at h
      · have := ih h; simp only [List.length_cons] at this ⊢; omega
      · subst h; simp
    case inventory => subst h; simp

mutual

/-- The parser's `nextControl`, given the current token and the remaining
stream: dispatch on `inventory`, EOF (success), or a command header. -/
def parseLoop (tkn : token) (ts : List token) (cfg : Config) :
    Except String Config :=
  match tkn.typ with
  | .inventory => inventoryControl ts cfg
  | .eof => .ok cfg
  | _ => commandControl tkn.val ts cfg
  termination_by (ts.length, 1)
  decreasing_by
  · exact Prod.Lex.right _ (by omega)
  · exact Prod.Lex.right _ (by omega)

/-- The parser's `commandControl`: record the default command on the first
command, reject duplicate names, collect the guard names and the body, and
reject a command whose body produced no `Execs`. -/
def commandControl (name : String) (ts : List token) (cfg : Config) :
    Except String Config :=
  let cfg := if cfg.Commands = [] then { cfg with DefaultCommand := name } else cfg
  if (cfg.Commands.lookup name).isSome then
    .error ("duplicate command " ++ name)
  else
    match h1 : collectExecIfs ts with
    | .error e => .error e
    | .ok r1 =>
      match h2 : collectBody false "" [] r1.2 with
      | .error e => .error e
      | .ok r2 =>
        if r2.1 = [] then .error ("nothing to exec for " ++ name)
        else
          parseLoop r2.2.1 r2.2.2
            { cfg with Commands := mapInsert cfg.Commands name ⟨r1.1, r2.1⟩ }
  termination_by (ts.length, 0)
  decreasing_by
  exact Prod.Lex.left _ _
    (lt_trans (collectBody_length h2) (collectExecIfs_length h1))

/-- The parser's `inventoryControl`: read the inventory name and the
newline after it, collect the indented host entries, reject an empty
section, and store the hosts under the section name. -/
def inventoryControl (ts : List token) (cfg : Config) : Except String Config :=
  if (nextNonSpace (nextNonSpace ts).2).1.typ ≠ tokenType.newline then
    .error "expected newline"
  else
    match h : collectInv false [] (nextNonSpace (nextNonSpace ts).2).2 with
    | .error e => .error e
    | .ok r =>
      if r.1 = [] then .error "empty inventory"
      else
        parseLoop r.2.1 r.2.2
          { cfg with
            Inventory := mapInsert cfg.Inventory (nextNonSpace ts).1.val r.1 }
  termination_by (ts.length, 0)
  decreasing_by
  exact Prod.Lex.left _ _
    (lt_of_lt_of_le (collectInv_length h)
      (le_trans (nextNonSpace_length_le (nextNonSpace ts).2)
        (nextNonSpace_length_le ts)))

end

/-- The parser's entry point `parse` before the validation pass: build the
`Config` tree from the token stream, starting from the first non-space
token (`t.parse()` in parser.go). -/
def parseRaw (text : String) : Except String Config :=
  parseLoop (nextNonSpace (tokenize text)).1 (nextNonSpace (tokenize text)).2
    { Commands := [], Inventory := [], DefaultCommand := "" }

/-- Validation pass of `parse`, run after the full table is loaded: for
each command, a guard equal to the command's own name is "depends on
itself", and a guard naming no defined command "is undefined". -/
def validateConfig (cfg : Config) : Option String :=
  cfg.Commands.findSome? (fun p =>
    p.2.ExecIfs.findSome? (fun execIf =>
      if execIf = p.1 then some (execIf ++ " depends on itself")
      else if (cfg.Commands.lookup execIf).isSome then none
      else some (execIf ++ " is undefined")))

/-- The full `parse` of parser.go: build the table, then run the
validation pass over the whole table. -/
def parse (text : String) : Except String Config :=
  match parseRaw text with
  | .error e => .error e
  | .ok cfg =>
    match validateConfig cfg with
    | some e => .error e
    | none => .ok cfg

/-! ### The substitution engine (`substituteVariables` in cmd/up/main.go)

`substituteVariables` builds a flat find/replace table and hands it to
`strings.NewReplacer`.  For nonempty patterns, Go's `Replacer.Replace`
scans the input left to right; at each position it replaces using the
*earliest pair in the argument list* whose pattern is a prefix of the
remaining input (the trie lookup keeps the match of highest priority,
and priority decreases along the argument list), then resumes after the
replaced pattern; positions with no match copy one character.  All the
patterns built here start with `'$'`, so they are never empty.
Iteration order over the two Go maps (`cmds` and `vars`) is modelled by
the order of the association lists; permutations of those lists stand
for the map's nondeterministic orders.
-/

/-- Whitespace predicate of `strings.TrimSpace` restricted to ASCII (the
Unicode spaces U+0085/U+00A0 etc. do not occur in this development). -/
def goIsSpace (c : Char) : Bool :=
  c = ' ' || c = '\t' || c = '\n' || c.toNat = 11 || c.toNat = 12 || c = '\r'

/-- Go's `strings.TrimSpace` on a rune list: drop leading and trailing
whitespace. -/
def trimSpace (s : List Char) : List Char :=
  ((s.dropWhile goIsSpace).reverse.dropWhile goIsSpace).reverse

/-- The replacement text a guard-free command contributes: its `Execs`
joined with trailing newlines, then trimmed
(`rep += c + "\n"; rep = strings.TrimSpace(rep)`). -/
def cmdReplacement (c : Cmd) : List Char :=
  trimSpace (c.Execs.foldl (fun acc e => acc ++ e.toList ++ ['\n']) [])

/-- The find/replace pairs of `substituteVariables`: every guard-free
command contributes `("$" + name, joined-and-trimmed Execs)` in table
order (commands with guards are skipped), followed by `("$" + name,
value)` for every runtime variable. -/
def buildReplacements (vars : List (String × String))
    (cmds : List (String × Cmd)) : List (List Char × List Char) :=
  let reps := cmds.foldl
    (fun acc p =>
      if p.2.ExecIfs.length > 0 then acc
      else acc ++ [('$' :: p.1.toList, cmdReplacement p.2)]) []
  vars.foldl (fun acc p => acc ++ [('$' :: p.1.toList, p.2.toList)]) reps

/-- The match Go's `Replacer` takes at the current position: the first
pair in argument order whose nonempty pattern is a prefix of the
remaining input. -/
def findMatch (pairs : List (List Char × List Char)) (s : List Char) :
    Option (List Char × List Char) :=
  pairs.find? (fun p => !p.1.isEmpty && p.1.isPrefixOf s)

/-- One `Replacer.Replace` pass over the input (for nonempty patterns):
replace at each position using `findMatch`, or copy one character. -/
def goReplace (pairs : List (List Char × List Char)) : List Char → List Char
  | [] => []
  | c :: rest =>
    match findMatch pairs (c :: rest) with
    | some pr => pr.2 ++ goReplace pairs (rest.drop (pr.1.length - 1))
    | none => c :: goReplace pairs rest
  termination_by s => s.length
  decreasing_by
  · simp only [List.length_cons, List.length_drop]
    omega
  · simp

/-- The bounded fixed-point loop of `substituteVariables`:
`for i := 0; i < 10; i++ { tmp := r.Replace(cmd); if cmd == tmp { return
cmd, nil }; cmd = tmp }` followed by the cycle error. -/
def svLoop (pairs : List (List Char × List Char)) :
    Nat → List Char → Except String (List Char)
  | 0, _ => .error "possible cycle detected"
  | n + 1, cmd =>
    let tmp := goReplace pairs cmd
    if cmd = tmp then .ok cmd else svLoop pairs n tmp

/-- The `substituteVariables` of cmd/up/main.go: build the replacement
table from the command table and the runtime variables, then replace
repeatedly, feeding each output back as input, for at most 10 passes. -/
def substituteVariables (vars : List (String × String))
    (cmds : List (String × Cmd)) (cmd : String) : Except String String :=
  match svLoop (buildReplacements vars cmds) 10 cmd.toList with
  | .error e => .error e
  | .ok r => .ok (String.mk r)

/-! ### The batch partitioner (`makeBatches` / `appendToBatch`)

The inventory is the JSON map from host to tags, modelled as an
association list.  `makeBatches` first inverts it into a tag → hosts map
(`invMap`), then cuts each tag's host list into groups of at most `max`
hosts.  `max` is a Go `int`, so it is modelled as `Int`.
-/

/-- One step of building the tag → hosts map: `if !exist { invMap[tag] =
[] }; invMap[tag] = append(invMap[tag], ip)`. -/
def addTag (m : List (String × List String)) (tag ip : String) :
    List (String × List String) :=
  match m.lookup tag with
  | some ips => mapInsert m tag (ips ++ [ip])
  | none => m ++ [(tag, [ip])]

/-- The tag → hosts map built by the first loop of `makeBatches`. -/
def invMap (inventory : List (String × List String)) :
    List (String × List String) :=
  inventory.foldl (fun m p => p.2.foldl (fun m tag => addTag m tag p.1) m) []

/-- Go's `appendToBatch`: add to the existing last group if smaller than
the max size, otherwise append a new group at the end. -/
def appendToBatch (b : List (List String)) (srv : String) (max : Int) :
    List (List String) :=
  if b.length = 0 then [[srv]]
  else if (b.getLastD []).length ≥ max then b ++ [[srv]]
  else b.dropLast ++ [b.getLastD [] ++ [srv]]

/-- The groups `makeBatches` builds for one tag's host list: one group of
all hosts when `max == 0`, otherwise a fold of `appendToBatch`. -/
def batchForTag (ips : List String) (max : Int) : List (List String) :=
  if max = 0 then [ips]
  else ips.foldl (fun b ip => appendToBatch b ip max) []

/-- Go's `makeBatches` from cmd/up/main.go: build the tag → hosts map,
then the per-tag groups, failing when the result is empty.  (The `conf`
parameter of the Go function is unused apart from its type.) -/
def makeBatches (inventory : List (String × List String)) (max : Int) :
    Except String (List (String × List (List String))) :=
  let batches := (invMap inventory).map (fun p => (p.1, batchForTag p.2 max))
  if batches.length = 0 then .error "empty batches, nothing to do"
  else .ok batches

/-! ### The execution orchestrator (`runExecIfs` / `runExec` / `runCmd`)

The external shell collaborator is an oracle `sh : String → Bool` mapping
the fully substituted command line to whether `sh -c` exited 0.  Each
function returns, besides the values the Go function communicates over
its channels, the trace of command lines actually handed to the shell, in
server order within a fan-out (the fan-out is concurrent in Go; each
server's execution is independent, only the channel delivery order is
nondeterministic).  A `none` result of `runExecIfs` models the Go nil-map
dereference (`cmds[execIf].Execs`) when a guard names no defined command;
tables produced by `parse` never trigger it.
-/

/-- Per-host result sent on `runExecIfs`'s channel (struct `result`). -/
structure result where
  server : String
  err : Option String
  deriving DecidableEq, Repr

/-- Per-host result sent on `runExec`'s channel (struct `runResult`). -/
structure runResult where
  pass : Bool
  error : Option String
  deriving DecidableEq, Repr

/-- Go's `copyCommands`: a fresh shallow map with the same entries.  On
value-semantic association lists the copy is the list itself. -/
def copyCommands (m : List (String × Cmd)) : List (String × Cmd) := m

/-- Go's `strings.SplitN(s, "\n", -1)` on a rune list: split at every
newline, keeping empty pieces, always returning at least one piece. -/
def splitNl : List Char → List (List Char)
  | [] => [[]]
  | c :: rest =>
    match splitNl rest with
    | [] => [[c]]
    | h :: t => if c = '\n' then [] :: h :: t else (c :: h) :: t

/-- Go's `runCmd`: inject the `server` pseudo-command, substitute, then
run the line through the shell.  In guard mode (`execIf`) a non-zero exit
is reported as a failed pass with no error; otherwise it is an error.
Returns the result sent on the channel and the trace of executed lines. -/
def runCmd (sh : String → Bool) (vars : List (String × String))
    (cmds : List (String × Cmd)) (cmd chk server : String)
    (execIf verbose : Bool) : runResult × List String :=
  let cmds := mapInsert (copyCommands cmds) "server" ⟨[], [server]⟩
  match substituteVariables vars cmds cmd with
  | .error e => (⟨false, some ("substitute: " ++ e)⟩, [])
  | .ok cmd =>
    if sh cmd then (⟨true, none⟩, [cmd])
    else if execIf then (⟨false, none⟩, [cmd])
    else (⟨false, some ("run " ++ cmd ++ ": exit status 1")⟩, [cmd])

/-- Go's `runExec`: inject the `checksum` pseudo-command, dispatch the
line to every server of the group, and aggregate: the step passes iff
every host passed (`pass = pass && res.pass`), and the error is the last
non-nil host error collected. -/
def runExec (sh : String → Bool) (vars : List (String × String))
    (cmds : List (String × Cmd)) (cmd chk : String) (servers : List String)
    (execIf verbose : Bool) : (Bool × Option String) × List String :=
  let cmds := mapInsert (copyCommands cmds) "checksum" ⟨[], [chk]⟩
  let rs := servers.map (fun server =>
    runCmd sh vars cmds cmd chk server execIf verbose)
  ((rs.foldl (fun p r => p && r.1.pass) true,
    rs.foldl (fun e r => match r.1.error with
      | some e2 => some e2
      | none => e) none),
   (rs.map (fun r => r.2)).flatten)

/-- Steps of a single guard command inside `runExecIfs`'s first loop: run
each line of the guard's `Execs` over the group in guard mode; an error
aborts (carrying the trace so far), otherwise a failed pass sets
`needToRun`. -/
def runGuardSteps (sh : String → Bool) (vars : List (String × String))
    (cmds : List (String × Cmd)) (chk : String) (servers : List String)
    (verbose : Bool) (needToRun : Bool) :
    List String → Except (String × List String) (Bool × List String)
  | [] => .ok (needToRun, [])
  | step :: rest =>
    match runExec sh vars cmds step chk servers true verbose with
    | ((ok, some e), tr) => .error (e, tr)
    | ((ok, none), tr) =>
      match runGuardSteps sh vars cmds chk servers verbose
          (needToRun || !ok) rest with
      | .error r => .error (r.1, tr ++ r.2)
      | .ok r => .ok (r.1, tr ++ r.2)

/-- First loop of `runExecIfs` over the guard names.  `none` models the
nil-map dereference on an undefined guard name. -/
def runGuards (sh : String → Bool) (vars : List (String × String))
    (cmds : List (String × Cmd)) (chk : String) (servers : List String)
    (verbose : Bool) (needToRun : Bool) :
    List String → Option (Except (String × List String) (Bool × List String))
  | [] => some (.ok (needToRun, []))
  | g :: rest =>
    match (copyCommands cmds).lookup g with
    | none => none
    | some c =>
      match runGuardSteps sh vars (copyCommands cmds) chk servers verbose
          needToRun c.Execs with
      | .error r => some (.error r)
      | .ok r =>
        match runGuards sh vars cmds chk servers verbose r.1 rest with
        | none => none
        | some (.error r2) => some (.error (r2.1, r.2 ++ r2.2))
        | some (.ok r2) => some (.ok (r2.1, r.2 ++ r2.2))

/-- The `send` closure of `runExecIfs`: one result per server of the
group, all carrying the same error. -/
def sendAll (err : Option String) (servers : List String) : List result :=
  servers.map (fun s => ⟨s, err⟩)

/-- The sub-lines of one substituted main line: run each over the group
(not in guard mode); the first error aborts the remaining sub-lines. -/
def runSubLines (sh : String → Bool) (vars : List (String × String))
    (cmds : List (String × Cmd)) (chk : String) (servers : List String)
    (verbose : Bool) : List String → Except (String × List String) (List String)
  | [] => .ok []
  | sub :: rest =>
    match runExec sh vars cmds sub chk servers false verbose with
    | ((_, some e), tr) => .error (e, tr)
    | ((_, none), tr) =>
      match runSubLines sh vars cmds chk servers verbose rest with
      | .error r => .error (r.1, tr ++ r.2)
      | .ok tr2 => .ok (tr ++ tr2)

/-- Second loop of `runExecIfs` over the main `Execs`: substitute each
line (an error is sent to every server and aborts), split the result on
embedded newlines, run the sub-lines, and on success continue with the
remaining lines; after the last line every server receives a nil error. -/
def runMainLines (sh : String → Bool) (vars : List (String × String))
    (cmds : List (String × Cmd)) (chk : String) (servers : List String)
    (verbose : Bool) : List String → List result × List String
  | [] => (sendAll none servers, [])
  | line :: rest =>
    match substituteVariables vars cmds line with
    | .error e => (sendAll (some e) servers, [])
    | .ok line =>
      match runSubLines sh vars cmds chk servers verbose
          ((splitNl line.toList).map String.mk) with
      | .error r => (sendAll (some r.1) servers, r.2)
      | .ok tr =>
        match runMainLines sh vars cmds chk servers verbose rest with
        | (res, tr2) => (res, tr ++ tr2)

/-- Go's `runExecIfs`: evaluate the guards; if at least one guard was
declared and none indicated failure, report success for every server
without running the main `Execs`; otherwise run the main `Execs`.
Returns the multiset of channel results (in server order) and the trace
of executed command lines, or `none` for the nil-map dereference on an
undefined guard. -/
def runExecIfs (sh : String → Bool) (vars : List (String × String))
    (cmds : List (String × Cmd)) (cmd : Cmd) (chk : String)
    (servers : List String) (verbose : Bool) :
    Option (List result × List String) :=
  match runGuards sh vars cmds chk servers verbose false cmd.ExecIfs with
  | none => none
  | some (.error r) => some (sendAll (some r.1) servers, r.2)
  | some (.ok r) =>
    if !r.1 && cmd.ExecIfs.length > 0 then some (sendAll none servers, r.2)
    else
      match runMainLines sh vars cmds chk servers verbose cmd.Execs with
      | (res, tr2) => some (res, r.2 ++ tr2)

/-! ### Derived notions used to state the claims -/

/-- Substring occurrence test used to state the reference graph of the
substitution engine: `occursIn pat s` holds iff `pat` occurs contiguously
in `s`. -/
def occursIn (pat : List Char) : List Char → Bool
  | [] => pat.isEmpty
  | c :: rest => pat.isPrefixOf (c :: rest) || occursIn pat rest

/-- The reference graph among commands: command `c` references command
`d` when some line of `c`'s body contains the text `$` followed by `d`'s
name. -/
def referencesTo (c d : String × Cmd) : Bool :=
  c.2.Execs.any (fun e => occursIn ('$' :: d.1.toList) e.toList)

/-- Acyclicity of the reference graph of a command table, witnessed by
the list order being topological: no command references itself, and no
command references an earlier one. -/
def acyclicReferences (cmds : List (String × Cmd)) : Prop :=
  List.Pairwise (fun a b => referencesTo b a = false) cmds ∧
    ∀ c ∈ cmds, referencesTo c c = false

/-- An acyclic chain of eleven guard-free commands, each referencing the
next: expanding `$a01` needs eleven replacement passes, one more than the
bound of `substituteVariables`. -/
def chainCmds : List (String × Cmd) :=
  [("a01", ⟨[], ["$a02"]⟩), ("a02", ⟨[], ["$a03"]⟩), ("a03", ⟨[], ["$a04"]⟩),
   ("a04", ⟨[], ["$a05"]⟩), ("a05", ⟨[], ["$a06"]⟩), ("a06", ⟨[], ["$a07"]⟩),
   ("a07", ⟨[], ["$a08"]⟩), ("a08", ⟨[], ["$a09"]⟩), ("a09", ⟨[], ["$a10"]⟩),
   ("a10", ⟨[], ["$a11"]⟩), ("a11", ⟨[], ["end"]⟩)]

/-! ### Claim C3: the bounded fixed-point semantics of `substituteVariables` -/

theorem svLoop_iterate (pairs : List (List Char × List Char)) (n : Nat) :
    ∀ c, svLoop pairs (n + 1) c =
      if (goReplace pairs)^[n] c = (goReplace pairs)^[n + 1] c
      then .ok ((goReplace pairs)^[n] c)
      else .error "possible cycle detected" := by
  induction n with
  | zero =>
    intro c
    have step : svLoop pairs (0 + 1) c =
        if c = goReplace pairs c then .ok c
        else svLoop pairs 0 (goReplace pairs c) := rfl
    rw [step]
    simp only [Function.iterate_succ_apply, Function.iterate_zero, id_eq]
    by_cases h : c = goReplace pairs c
    · rw [if_pos h, if_pos h]
    · rw [if_neg h, if_neg h]; rfl
  | succ n ih =>
    intro c
    have step : svLoop pairs (n + 1 + 1) c =
        if c = goReplace pairs c then .ok c
        else svLoop pairs (n + 1) (goReplace pairs c) := rfl
    rw [step, ih (goReplace pairs c)]
    by_cases h : c = goReplace pairs c
    · have hfix : ∀ k, (goReplace pairs)^[k] c = c :=
        fun k => Function.iterate_fixed h.symm k
      rw [if_pos h, hfix (n + 1), hfix (n + 1 + 1), if_pos rfl]
    · have hs : ∀ k, (goReplace pairs)^[k] (goReplace pairs c) =
          (goReplace pairs)^[k + 1] c :=
        fun k => (Function.iterate_succ_apply (goReplace pairs) k c).symm
      rw [if_neg h, hs n, hs (n + 1)]

/-- C3 (amended): `substituteVariables` applies the find/replace pass
repeatedly, feeding each output back as input, and returns the first
fixed point reached within 10 passes; if 10 passes elapse without
reaching a fixed point it fails with the error "possible cycle detected".
(The original claim's assertion that it converges for *every* acyclic
reference graph is refuted by `substitute_acyclic_chain_counterexample`:
an acyclic chain deeper than the pass bound is reported as a cycle.) -/
theorem substituteVariables_fixed_point_within_ten
    (vars : List (String × String)) (cmds : List (String × Cmd))
    (cmd : String) :
    substituteVariables vars cmds cmd =
      if (goReplace (buildReplacements vars cmds))^[9] cmd.toList =
          (goReplace (buildReplacements vars cmds))^[9 + 1] cmd.toList
      then .ok (String.mk
        ((goReplace (buildReplacements vars cmds))^[9] cmd.toList))
      else .error "possible cycle detected" := by
  unfold substituteVariables
  rw [show (10 : Nat) = 9 + 1 from rfl, svLoop_iterate]
  by_cases hc : (goReplace (buildReplacements vars cmds))^[9] cmd.toList =
      (goReplace (buildReplacements vars cmds))^[9 + 1] cmd.toList
  · rw [if_pos hc, if_pos hc]
  · rw [if_neg hc, if_neg hc]

/-- C3 (counterexample): `chainCmds` is an acyclic table of guard-free
commands, yet substituting `$a01` is reported as "possible cycle
detected", refuting the claim that `substitute` converges within 10
rounds for any acyclic reference graph among guard-free commands. -/
theorem substitute_acyclic_chain_counterexample :
    acyclicReferences chainCmds ∧
    (∀ p ∈ chainCmds, p.2.ExecIfs = []) ∧
    substituteVariables [] chainCmds "$a01" = .error "possible cycle detected" := by
  refine ⟨⟨by decide, by decide⟩, by decide, ?_⟩
  simp [substituteVariables, svLoop, goReplace, buildReplacements, findMatch,
    cmdReplacement, trimSpace, goIsSpace, chainCmds, String.toList]

/-! ### Claim C7: parsing an input with no commands -/

/-- C7 (code bug): the spec and the repository's own parser test require
an input with no command definitions to fail parsing, but `parse ""`
succeeds with an empty `Config`: `nextControl` treats the EOF token as a
successful end of parsing and no emptiness check follows. -/
theorem parse_empty_input_ok :
    parse "" = .ok { Commands := [], Inventory := [], DefaultCommand := "" } := by
  simp [parse, parseRaw, tokenize, lexText, nextNonSpace, parseLoop,
    validateConfig]

/-! ### Claim C4: only guard-free commands are substitutable -/

theorem cmdPairs_foldl (cmds : List (String × Cmd)) :
    ∀ acc, cmds.foldl (fun acc p => if p.2.ExecIfs.length > 0 then acc
        else acc ++ [('$' :: p.1.toList, cmdReplacement p.2)]) acc =
      acc ++ (cmds.filter (fun p => p.2.ExecIfs.isEmpty)).map
        (fun p => ('$' :: p.1.toList, cmdReplacement p.2)) := by
  induction cmds with
  | nil => intro acc; simp
  | cons a l ih =>
    intro acc
    rw [List.foldl_cons, List.filter_cons]
    cases ha : a.2.ExecIfs with
    | nil =>
      rw [if_neg (by simp : ¬([] : List String).length > 0), ih]
      simp
    | cons x xs =>
      rw [if_pos (by simp : ((x :: xs) : List String).length > 0), ih]
      simp

theorem varPairs_foldl (vars : List (String × String)) :
    ∀ acc : List (List Char × List Char),
      vars.foldl (fun acc p => acc ++ [('$' :: p.1.toList, p.2.toList)]) acc =
        acc ++ vars.map (fun p => ('$' :: p.1.toList, p.2.toList)) := by
  induction vars with
  | nil => intro acc; simp
  | cons a l ih =>
    intro acc
    rw [List.foldl_cons, ih]
    simp

/-- The find/replace table assembled by `substituteVariables`, in closed
form: exactly the guard-free commands contribute a pair, in table order,
followed by the pairs of the runtime variables. -/
theorem buildReplacements_eq (vars : List (String × String))
    (cmds : List (String × Cmd)) :
    buildReplacements vars cmds =
      (cmds.filter (fun p => p.2.ExecIfs.isEmpty)).map
        (fun p => ('$' :: p.1.toList, cmdReplacement p.2)) ++
      vars.map (fun p => ('$' :: p.1.toList, p.2.toList)) := by
  unfold buildReplacements
  rw [varPairs_foldl, cmdPairs_foldl]
  simp

/-- Uniqueness of association-list values under distinct keys. -/
theorem assoc_nodup_value_unique {β : Type} :
    ∀ (l : List (String × β)), (l.map Prod.fst).Nodup →
      ∀ {a : String} {b b' : β}, (a, b) ∈ l → (a, b') ∈ l → b = b' := by
  intro l
  induction l with
  | nil => intro _ a b b' h; simp at h
  | cons p l ih =>
    intro hnd a b b' h1 h2
    simp only [List.map_cons, List.nodup_cons] at hnd
    rcases List.mem_cons.mp h1 with h1 | h1 <;>
      rcases List.mem_cons.mp h2 with h2 | h2
    · exact (Prod.ext_iff.mp (h1.trans h2.symm)).2
    · exfalso
      apply hnd.1
      rw [← h1]
      exact List.mem_map.mpr ⟨(a, b'), h2, rfl⟩
    · exfalso
      apply hnd.1
      rw [← h2]
      exact List.mem_map.mpr ⟨(a, b), h1, rfl⟩
    · exact ih hnd.2 h1 h2

/-- C4: the find/replace table of `substituteVariables` is built from
exactly the commands whose `ExecIfs` list is empty — each contributing
the pair `("$" ++ name, Execs joined by newlines and trimmed)` — followed
by the runtime-variable pairs; and for a table with distinct command
names, a command with at least one declared guard contributes no pair, so
`"$" ++ name` for a guarded `name` is not a pattern of any
command-contributed pair. -/
theorem buildReplacements_guard_free_only (vars : List (String × String))
    (cmds : List (String × Cmd)) (hnd : (cmds.map Prod.fst).Nodup) :
    buildReplacements vars cmds =
      (cmds.filter (fun p => p.2.ExecIfs.isEmpty)).map
        (fun p => ('$' :: p.1.toList, cmdReplacement p.2)) ++
      vars.map (fun p => ('$' :: p.1.toList, p.2.toList)) ∧
    ∀ name c, (name, c) ∈ cmds → c.ExecIfs ≠ [] →
      ∀ rep, ('$' :: name.toList, rep) ∉
        (cmds.filter (fun p => p.2.ExecIfs.isEmpty)).map
          (fun p => ('$' :: p.1.toList, cmdReplacement p.2)) := by
  refine ⟨buildReplacements_eq vars cmds, ?_⟩
  intro name c hmem hguard rep hin
  rcases List.mem_map.mp hin with ⟨p, hpf, hpe⟩
  have hpmem : p ∈ cmds := (List.mem_filter.mp hpf).1
  have hpfree : p.2.ExecIfs.isEmpty = true := (List.mem_filter.mp hpf).2
  have hname : p.1 = name := by
    have h1 : '$' :: p.1.toList = '$' :: name.toList := congrArg Prod.fst hpe
    exact String.toList_inj.mp (List.cons_injective.eq_iff.mp h1)
  have hval : p.2 = c := by
    apply assoc_nodup_value_unique cmds hnd _ hmem
    rw [← hname]
    exact hpmem
  apply hguard
  rw [← hval]
  simpa using hpfree

/-- Witness for C4: in a concrete table where `guarded` has a declared
guard and `free` has none, no command-contributed pair carries the
pattern `$guarded`. -/
theorem buildReplacements_guard_free_only_witness :
    ('$' :: "guarded".toList, "echo 2".toList) ∉
      (([("free", ⟨[], ["echo 1"]⟩), ("guarded", ⟨["free"], ["echo 2"]⟩)] :
          List (String × Cmd)).filter (fun p => p.2.ExecIfs.isEmpty)).map
        (fun p => ('$' :: p.1.toList, cmdReplacement p.2)) :=
  (buildReplacements_guard_free_only [("v", "1")]
    [("free", ⟨[], ["echo 1"]⟩), ("guarded", ⟨["free"], ["echo 2"]⟩)]
    (by decide)).2 "guarded" ⟨["free"], ["echo 2"]⟩ (by decide) (by decide)
    "echo 2".toList

/-! ### Claim C5: the shape of the groups built by `makeBatches` -/

/-- Shape invariant maintained by the `appendToBatch` fold: the batch is
empty, or it is full groups of exactly `N` hosts followed by a nonempty
last group of at most `N` hosts. -/
def batchShape (N : Int) (b : List (List String)) : Prop :=
  b = [] ∨ ∃ gs last, b = gs ++ [last] ∧ (∀ g ∈ gs, (g.length : Int) = N) ∧
    last ≠ [] ∧ (last.length : Int) ≤ N

theorem appendToBatch_shape {N : Int} (hN : 0 < N) (b : List (List String))
    (srv : String) (h : batchShape N b) :
    batchShape N (appendToBatch b srv N) ∧
      (appendToBatch b srv N).flatten = b.flatten ++ [srv] := by
  rcases h with h | ⟨gs, last, rfl, hfull, hne, hle⟩
  · subst h
    refine ⟨.inr ⟨[], [srv], rfl, by simp, by simp, by simp; omega⟩,
      by simp [appendToBatch]⟩
  · have hlast : (gs ++ [last]).getLastD [] = last := by
      simp [List.getLastD_concat]
    have hdrop : (gs ++ [last]).dropLast = gs := by
      simp [List.dropLast_concat]
    unfold appendToBatch
    rw [if_neg (by simp), hlast, hdrop]
    by_cases hge : ((last.length : Int) ≥ N)
    · rw [if_pos hge]
      have hfullset : ∀ g ∈ gs ++ [last], (g.length : Int) = N := by
        intro g hg
        rcases List.mem_append.mp hg with hg | hg
        · exact hfull g hg
        · simp at hg
          subst hg
          omega
      refine ⟨.inr ⟨gs ++ [last], [srv], by simp, hfullset, by simp, by simp; omega⟩, ?_⟩
      simp
    · rw [if_neg hge]
      refine ⟨.inr ⟨gs, last ++ [srv], rfl, hfull, by simp, ?_⟩, ?_⟩
      · simp
        omega
      · simp

theorem batchFold_shape {N : Int} (hN : 0 < N) :
    ∀ (ips : List String) (b : List (List String)), batchShape N b →
      batchShape N (ips.foldl (fun b ip => appendToBatch b ip N) b) ∧
        (ips.foldl (fun b ip => appendToBatch b ip N) b).flatten =
          b.flatten ++ ips := by
  intro ips
  induction ips with
  | nil => intro b h; exact ⟨h, by simp⟩
  | cons ip ips ih =>
    intro b h
    have step := appendToBatch_shape hN b ip h
    have rec := ih (appendToBatch b ip N) step.1
    refine ⟨rec.1, ?_⟩
    rw [List.foldl_cons, rec.2, step.2]
    simp

theorem sum_lengths_all_eq {gs : List (List String)} {n : Nat}
    (h : ∀ g ∈ gs, g.length = n) :
    (gs.map List.length).sum = n * gs.length := by
  induction gs with
  | nil => simp
  | cons g gs ih =>
    simp only [List.map_cons, List.sum_cons, List.length_cons]
    rw [h g (by simp), ih (fun g hg => h g (by simp [hg]))]
    ring

theorem batchShape_count {N : Int} (hN : 0 < N) (b : List (List String))
    (h : batchShape N b) :
    b.length = (b.flatten.length + N.toNat - 1) / N.toNat := by
  have hN' : 0 < N.toNat := by omega
  rcases h with h | ⟨gs, last, rfl, hfull, hne, hle⟩
  · subst h
    simp [Nat.div_eq_of_lt (by omega : N.toNat - 1 < N.toNat)]
  · have hfull' : ∀ g ∈ gs, g.length = N.toNat := by
      intro g hg
      have := hfull g hg
      omega
    have hlen : (gs ++ [last]).flatten.length =
        N.toNat * gs.length + last.length := by
      rw [List.length_flatten, List.map_append, List.sum_append,
        sum_lengths_all_eq hfull']
      simp
    have hlast1 : 1 ≤ last.length := List.length_pos.mpr hne
    have hlastN : last.length ≤ N.toNat := by omega
    rw [hlen]
    have harith : N.toNat * gs.length + last.length + N.toNat - 1 =
        N.toNat * (gs.length + 1) + (last.length - 1) := by
      rw [Nat.mul_succ]
      omega
    rw [harith, Nat.mul_add_div hN', Nat.div_eq_of_lt (by omega)]
    simp

/-- C5: for every inventory and serial size `N`, whenever `makeBatches`
succeeds, each tag's groups partition exactly the tag's host list from
the tag → hosts map: with `N = 0` there is a single group holding all of
the tag's hosts; with `N > 0` the groups concatenate back to the host
list (every host exactly once, order preserved), each group holds at most
`N` hosts, and there are exactly `ceil(k/N) = (k + N - 1) / N` groups for
`k` hosts. -/
theorem makeBatches_partition (inventory : List (String × List String))
    (N : Int) (batches : List (String × List (List String)))
    (hok : makeBatches inventory N = .ok batches) :
    ∀ tag groups, (tag, groups) ∈ batches →
      ∃ ips, (tag, ips) ∈ invMap inventory ∧
        (N = 0 → groups = [ips]) ∧
        (0 < N → groups.flatten = ips ∧
          (∀ g ∈ groups, (g.length : Int) ≤ N) ∧
          groups.length = (ips.length + N.toNat - 1) / N.toNat) := by
  intro tag groups hmem
  have hb : batches = (invMap inventory).map (fun p => (p.1, batchForTag p.2 N)) := by
    simp only [makeBatches] at hok
    split at hok
    · exact absurd hok (by simp)
    · exact (Except.ok.inj hok).symm
  rw [hb] at hmem
  rcases List.mem_map.mp hmem with ⟨p, hp, hpe⟩
  obtain ⟨htag, hgroups⟩ : p.1 = tag ∧ batchForTag p.2 N = groups := by
    constructor
    · exact congrArg Prod.fst hpe
    · exact congrArg Prod.snd hpe
  refine ⟨p.2, by rw [← htag]; exact hp, ?_, ?_⟩
  · intro h0
    rw [← hgroups]
    simp [batchForTag, h0]
  · intro hpos
    have hzero : ¬N = 0 := by omega
    have hshape := batchFold_shape hpos p.2 [] (.inl rfl)
    have hflat : groups.flatten = p.2 := by
      rw [← hgroups]
      simpa [batchForTag, hzero] using hshape.2
    refine ⟨hflat, ?_, ?_⟩
    · intro g hg
      have hsh : batchShape N groups := by
        rw [← hgroups]
        simpa [batchForTag, hzero] using hshape.1
      rcases hsh with h | ⟨gs, last, heq, hfull, hne, hle⟩
      · rw [h] at hg; simp at hg
      · rw [heq] at hg
        rcases List.mem_append.mp hg with hg | hg
        · rw [hfull g hg]
        · simp at hg; subst hg; exact hle
    · have hsh : batchShape N groups := by
        rw [← hgroups]
        simpa [batchForTag, hzero] using hshape.1
      rw [← hflat]
      exact batchShape_count hpos groups hsh

/-- Witness for C5: three hosts tagged `web` with serial size 2 produce
two groups, `[h1, h2]` and `[h3]`, covering every host once. -/
theorem makeBatches_partition_witness :
    ∃ ips, ("web", ips) ∈
        invMap [("h1", ["web"]), ("h2", ["web"]), ("h3", ["web"])] ∧
      (((2 : Int) = 0) → [["h1", "h2"], ["h3"]] = [ips]) ∧
      ((0 : Int) < 2 → ([["h1", "h2"], ["h3"]] : List (List String)).flatten = ips ∧
        (∀ g ∈ ([["h1", "h2"], ["h3"]] : List (List String)), (g.length : Int) ≤ 2) ∧
        ([["h1", "h2"], ["h3"]] : List (List String)).length =
          (ips.length + (2 : Int).toNat - 1) / (2 : Int).toNat) := by
  have h := makeBatches_partition
    [("h1", ["web"]), ("h2", ["web"]), ("h3", ["web"])] 2
    [("web", [["h1", "h2"], ["h3"]])]
    (by simp [makeBatches, invMap, addTag, mapInsert, batchForTag, appendToBatch])
    "web" [["h1", "h2"], ["h3"]] (by simp)
  exact h

/-! ### Claim C6: the parser's validation errors -/

theorem mapInsert_forall {β : Type} (P : β → Prop) (m : List (String × β))
    (k : String) (v : β) (hm : ∀ p ∈ m, P p.2) (hv : P v) :
    ∀ p ∈ mapInsert m k v, P p.2 := by
  intro p hp
  unfold mapInsert at hp
  by_cases h : (m.lookup k).isSome
  · rw [if_pos h] at hp
    rcases List.mem_map.mp hp with ⟨q, hq, hqe⟩
    by_cases hqk : q.1 = k
    · rw [if_pos hqk] at hqe
      rw [← hqe]
      exact hv
    · rw [if_neg hqk] at hqe
      rw [← hqe]
      exact hm q hq
  · rw [if_neg h] at hp
    rcases List.mem_append.mp hp with hp | hp
    · exact hm p hp
    · simp at hp
      rw [hp]
      exact hv

/-- Commands are only ever inserted by `commandControl` after its
"nothing to exec" check, so every command of a parsed table has a
nonempty body. -/
theorem parseLoop_execs_nonempty :
    ∀ (tkn : token) (ts : List token) (cfg : Config),
      ∀ cfg', parseLoop tkn ts cfg = .ok cfg' →
        (∀ p ∈ cfg.Commands, p.2.Execs ≠ []) →
        ∀ p ∈ cfg'.Commands, p.2.Execs ≠ [] := by
  apply parseLoop.induct
    (fun tkn ts cfg => ∀ cfg', parseLoop tkn ts cfg = .ok cfg' →
      (∀ p ∈ cfg.Commands, p.2.Execs ≠ []) → ∀ p ∈ cfg'.Commands, p.2.Execs ≠ [])
    (fun name ts cfg => ∀ cfg', commandControl name ts cfg = .ok cfg' →
      (∀ p ∈ cfg.Commands, p.2.Execs ≠ []) → ∀ p ∈ cfg'.Commands, p.2.Execs ≠ [])
    (fun ts cfg => ∀ cfg', inventoryControl ts cfg = .ok cfg' →
      (∀ p ∈ cfg.Commands, p.2.Execs ≠ []) → ∀ p ∈ cfg'.Commands, p.2.Execs ≠ [])
  · intro tkn ts cfg h ih cfg' hok hinv
    simp only [parseLoop, h] at hok
    exact ih cfg' hok hinv
  · intro tkn ts cfg h cfg' hok hinv
    simp only [parseLoop, h] at hok
    rw [← Except.ok.inj hok]
    exact hinv
  · intro tkn ts cfg h1 h2 ih cfg' hok hinv
    have hu : parseLoop tkn ts cfg = commandControl tkn.val ts cfg := by
      cases htyp : tkn.typ <;> simp only [parseLoop, htyp]
      · exact absurd htyp h2
      · exact absurd htyp h1
    rw [hu] at hok
    exact ih cfg' hok hinv
  · intro name ts cfg cfg1 hdup cfg' hok hinv
    unfold cfg1 at hdup
    simp only [dite_eq_ite] at hdup
    simp only [commandControl] at hok
    rw [if_pos hdup] at hok
    exact Except.noConfusion hok
  · intro name ts cfg cfg1 hdup e he cfg' hok hinv
    unfold cfg1 at hdup
    simp only [dite_eq_ite] at hdup
    simp only [commandControl] at hok
    rw [if_neg hdup, he] at hok
    exact Except.noConfusion hok
  · intro name ts cfg cfg1 hdup r1 hr1 e he cfg' hok hinv
    unfold cfg1 at hdup
    simp only [dite_eq_ite] at hdup
    simp only [commandControl] at hok
    rw [if_neg hdup, hr1] at hok
    dsimp only at hok
    rw [he] at hok
    exact Except.noConfusion hok
  · intro name ts cfg cfg1 hdup r1 hr1 r2 hr2 hempty cfg' hok hinv
    unfold cfg1 at hdup
    simp only [dite_eq_ite] at hdup
    obtain ⟨ex2, rest2⟩ := r2
    simp only at hempty
    subst hempty
    simp only [commandControl] at hok
    rw [if_neg hdup, hr1] at hok
    dsimp only at hok
    rw [hr2] at hok
    exact Except.noConfusion hok
  · intro name ts cfg cfg1 hdup r1 hr1 r2 hr2 hne ih cfg' hok hinv
    unfold cfg1 at hdup ih
    simp only [dite_eq_ite] at hdup ih
    obtain ⟨ex2, rest2⟩ := r2
    simp only at hne ih
    rcases hex : ex2 with _ | ⟨x, xs⟩
    · exact absurd hex hne
    subst hex
    simp only [commandControl] at hok
    rw [if_neg hdup, hr1] at hok
    dsimp only at hok
    rw [hr2] at hok
    refine ih cfg' hok ?_
    refine mapInsert_forall (fun c : Cmd => c.Execs ≠ []) _ name
      ⟨r1.1, x :: xs⟩ ?_ (by simp)
    intro p hp
    apply hinv
    revert hp
    split <;> exact fun hp => hp
  · intro ts cfg h cfg' hok hinv
    simp only [inventoryControl] at hok
    rw [if_pos h] at hok
    exact Except.noConfusion hok
  · intro ts cfg h e he cfg' hok hinv
    simp only [inventoryControl] at hok
    rw [if_neg h, he] at hok
    exact Except.noConfusion hok
  · intro ts cfg h r2 hr2 hempty cfg' hok hinv
    obtain ⟨inv2, rest2⟩ := r2
    simp only at hempty
    subst hempty
    simp only [inventoryControl] at hok
    rw [if_neg h, hr2] at hok
    exact Except.noConfusion hok
  · intro ts cfg h r2 hr2 hne ih cfg' hok hinv
    obtain ⟨inv2, rest2⟩ := r2
    simp only at hne ih
    rcases hex : inv2 with _ | ⟨x, xs⟩
    · exact absurd hex hne
    subst hex
    simp only [inventoryControl] at hok
    rw [if_neg h, hr2] at hok
    exact ih cfg' hok hinv

/-- A passing validation pass means no self-referential and no undefined
guard anywhere in the table. -/
theorem validateConfig_none_sound (cfg : Config)
    (h : validateConfig cfg = none) :
    ∀ p ∈ cfg.Commands, ∀ g ∈ p.2.ExecIfs,
      g ≠ p.1 ∧ (cfg.Commands.lookup g).isSome := by
  intro p hp g hg
  have hp' := (List.findSome?_eq_none_iff.mp h) p hp
  have hg' := (List.findSome?_eq_none_iff.mp hp') g hg
  by_cases hself : g = p.1
  · rw [if_pos hself] at hg'
    simp at hg'
  · rw [if_neg hself] at hg'
    by_cases hdef : (cfg.Commands.lookup g).isSome
    · exact ⟨hself, hdef⟩
    · rw [if_neg hdef] at hg'
      simp at hg'

/-- C6: `parse` runs the guard checks as a validation pass over the whole
table after parsing completes (`parse` succeeds exactly when the raw
parse succeeds and the validation pass finds nothing); every command of a
successfully parsed table has a nonempty body, no self-referential guard
and no undefined guard; and duplicate command names, self-referential
guards, undefined guards, and empty-body commands each fail with their
distinguishable error message. -/
theorem parse_validation_errors :
    (∀ text cfg, parse text = .ok cfg ↔
      (parseRaw text = .ok cfg ∧ validateConfig cfg = none)) ∧
    (∀ text cfg, parse text = .ok cfg →
      ∀ p ∈ cfg.Commands, p.2.Execs ≠ [] ∧
        ∀ g ∈ p.2.ExecIfs, g ≠ p.1 ∧ (cfg.Commands.lookup g).isSome) ∧
    parse "a\n\tx\na\n\ty\n" = .error "duplicate command a" ∧
    parse "a a\n\tx\n" = .error "a depends on itself" ∧
    parse "a b\n\tx\n" = .error "b is undefined" ∧
    parse "a\nb\n\tx\n" = .error "nothing to exec for a" := by
  have hiff : ∀ text cfg, parse text = .ok cfg ↔
      (parseRaw text = .ok cfg ∧ validateConfig cfg = none) := by
    intro text cfg
    constructor
    · intro h
      unfold parse at h
      rcases hraw : parseRaw text with e | cfg0 <;> rw [hraw] at h
      · exact Except.noConfusion h
      · have h2 : (match validateConfig cfg0 with
            | some e => (Except.error e : Except String Config)
            | none => Except.ok cfg0) = Except.ok cfg := h
        rcases hval : validateConfig cfg0 with _ | e <;> rw [hval] at h2
        · have he : cfg0 = cfg := Except.ok.inj h2
          subst he
          exact ⟨rfl, hval⟩
        · exact Except.noConfusion h2
    · intro hpair
      unfold parse
      rw [hpair.1]
      have h2 : (match validateConfig cfg with
          | some e => (Except.error e : Except String Config)
          | none => Except.ok cfg) = Except.ok cfg := by
        rw [hpair.2]
      exact h2
  refine ⟨hiff, ?_, ?_, ?_, ?_, ?_⟩
  · intro text cfg hok p hp
    have ⟨hraw, hval⟩ := (hiff text cfg).mp hok
    constructor
    · unfold parseRaw at hraw
      exact parseLoop_execs_nonempty _ _ _ cfg hraw (by simp) p hp
    · exact validateConfig_none_sound cfg hval p hp
  · simp [parse, parseRaw, tokenize, lexText, nextNonSpace, parseLoop,
      commandControl, collectExecIfs, collectBody, validateConfig, mapInsert,
      zeroToken, goQuote]
  · simp [parse, parseRaw, tokenize, lexText, nextNonSpace, parseLoop,
      commandControl, collectExecIfs, collectBody, validateConfig, mapInsert,
      zeroToken, goQuote]
  · simp [parse, parseRaw, tokenize, lexText, nextNonSpace, parseLoop,
      commandControl, collectExecIfs, collectBody, validateConfig, mapInsert,
      zeroToken, goQuote]
  · simp [parse, parseRaw, tokenize, lexText, nextNonSpace, parseLoop,
      commandControl, collectExecIfs, collectBody, validateConfig, mapInsert,
      zeroToken, goQuote]

/-- Witness for C6: a well-formed two-command Upfile parses, and the
soundness part of the claim yields nonempty bodies and well-formed guards
for its `deploy` command. -/
theorem parse_validation_errors_witness :
    (⟨["check"], ["echo hi"]⟩ : Cmd).Execs ≠ [] ∧
      ∀ g ∈ (⟨["check"], ["echo hi"]⟩ : Cmd).ExecIfs, g ≠ "deploy" ∧
        (List.lookup g
          [("deploy", (⟨["check"], ["echo hi"]⟩ : Cmd)),
           ("check", (⟨[], ["true"]⟩ : Cmd))]).isSome :=
  parse_validation_errors.2.1 "deploy check\n\techo hi\n\ncheck\n\ttrue\n"
    { Commands := [("deploy", ⟨["check"], ["echo hi"]⟩),
                   ("check", ⟨[], ["true"]⟩)],
      Inventory := [], DefaultCommand := "deploy" }
    (by simp [parse, parseRaw, tokenize, lexText, nextNonSpace, parseLoop,
      commandControl, collectExecIfs, collectBody, validateConfig, mapInsert,
      zeroToken, goQuote])
    ("deploy", ⟨["check"], ["echo hi"]⟩) (by simp)

/-! ### Claim C9: order (in)dependence of `substituteVariables`

Go's `strings.Replacer` replaces, at each position, with the earliest
pair in the argument list whose pattern matches, and the pairs are
assembled while ranging over two Go maps, whose iteration order is
nondeterministic.  When one name is a proper prefix of another (the
spec's own example: `check` and `checksum`) the result therefore depends
on the iteration order; when no pattern is a prefix of another pattern
the match at every position is unique and the result is
order-independent.
-/

/-- At most one pair can match at a position when no pattern is a prefix
of a different pair's pattern, so `findMatch` is invariant under
permutations of the pair list. -/
theorem findMatch_perm {pairs pairs' : List (List Char × List Char)}
    (hperm : pairs.Perm pairs')
    (huniq : ∀ p ∈ pairs, ∀ q ∈ pairs, p.1.isPrefixOf q.1 = true → p = q) :
    ∀ s, findMatch pairs s = findMatch pairs' s := by
  intro s
  rcases h1 : findMatch pairs s with _ | pr
  · rcases h2 : findMatch pairs' s with _ | qr
    · rfl
    · exfalso
      have hqr_mem : qr ∈ pairs := hperm.mem_iff.mpr
        (List.mem_of_find?_eq_some h2)
      have := List.find?_eq_none.mp h1 qr hqr_mem
      have := List.find?_some h2
      simp_all
  · have hpr_mem : pr ∈ pairs := List.mem_of_find?_eq_some h1
    have hpr_pred := List.find?_some h1
    rcases h2 : findMatch pairs' s with _ | qr
    · exfalso
      have := List.find?_eq_none.mp h2 pr (hperm.mem_iff.mp hpr_mem)
      simp_all
    · have hqr_mem : qr ∈ pairs := hperm.mem_iff.mpr
        (List.mem_of_find?_eq_some h2)
      have hqr_pred := List.find?_some h2
      simp only [Bool.and_eq_true, Bool.not_eq_true'] at hpr_pred hqr_pred
      have hps : pr.1 <+: s := List.isPrefixOf_iff_prefix.mp hpr_pred.2
      have hqs : qr.1 <+: s := List.isPrefixOf_iff_prefix.mp hqr_pred.2
      rcases List.prefix_or_prefix_of_prefix hps hqs with h | h
      · exact congrArg some (huniq pr hpr_mem qr hqr_mem
          (List.isPrefixOf_iff_prefix.mpr h))
      · exact congrArg some
          ((huniq qr hqr_mem pr hpr_mem (List.isPrefixOf_iff_prefix.mpr h)).symm)

/-- A replacement pass is determined by the per-position match. -/
theorem goReplace_congr {pairs pairs' : List (List Char × List Char)}
    (h : ∀ s, findMatch pairs s = findMatch pairs' s) :
    ∀ s, goReplace pairs s = goReplace pairs' s := by
  apply goReplace.induct pairs
  · simp [goReplace]
  · intro c rest pr hfm ih
    rw [goReplace, goReplace, hfm, ← h (c :: rest), hfm]
    dsimp only
    rw [ih]
  · intro c rest hfm ih
    rw [goReplace, goReplace, hfm, ← h (c :: rest), hfm]
    dsimp only
    rw [ih]

theorem svLoop_congr {pairs pairs' : List (List Char × List Char)}
    (h : ∀ s, goReplace pairs s = goReplace pairs' s) :
    ∀ n c, svLoop pairs n c = svLoop pairs' n c := by
  intro n
  induction n with
  | zero => intro c; rfl
  | succ n ih =>
    intro c
    simp only [svLoop, h c]
    by_cases hc : c = goReplace pairs' c
    · rw [if_pos hc, if_pos hc]
    · rw [if_neg hc, if_neg hc, ih]

/-- C9 (amended): for fixed runtime variables, command table and input
line, the result of `substituteVariables` is independent of the order in
which the find/replace pairs are assembled from the table and the
variable map, *provided* no pattern is a prefix of a different pair's
pattern (in particular, no name such as `check` is a prefix of another
name such as `checksum`).  Without that proviso the result does depend on
the order, as `substitute_order_dependence_counterexample` shows. -/
theorem substituteVariables_order_independent
    (vars vars' : List (String × String)) (cmds cmds' : List (String × Cmd))
    (hv : vars.Perm vars') (hc : cmds.Perm cmds')
    (huniq : ∀ p ∈ buildReplacements vars cmds,
      ∀ q ∈ buildReplacements vars cmds, p.1.isPrefixOf q.1 = true → p = q)
    (line : String) :
    substituteVariables vars cmds line = substituteVariables vars' cmds' line := by
  have hperm : (buildReplacements vars cmds).Perm (buildReplacements vars' cmds') := by
    rw [buildReplacements_eq, buildReplacements_eq]
    exact ((hc.filter _).map _).append (hv.map _)
  unfold substituteVariables
  rw [svLoop_congr (goReplace_congr (findMatch_perm hperm huniq)) 10 line.toList]

/-- The spec's own prefix pair: with both `check` and `checksum` defined
and guard-free, the expansion of `$checksum` depends on the order in
which the two (permuted) tables assemble the replacer pairs. -/
def checkCmds : List (String × Cmd) :=
  [("check", ⟨[], ["AAA"]⟩), ("checksum", ⟨[], ["BBB"]⟩)]

/-- The same table as `checkCmds` in the other iteration order. -/
def checkCmdsRev : List (String × Cmd) :=
  [("checksum", ⟨[], ["BBB"]⟩), ("check", ⟨[], ["AAA"]⟩)]

/-- C9 (counterexample): the two orders of the same command table give
different results for the same line, so the result of `substitute` is
not independent of the order in which the find/replace pairs are
assembled. -/
theorem substitute_order_dependence_counterexample :
    checkCmds.Perm checkCmdsRev ∧
    substituteVariables [] checkCmds "$checksum" = .ok "AAAsum" ∧
    substituteVariables [] checkCmdsRev "$checksum" = .ok "BBB" := by
  refine ⟨by decide, ?_, ?_⟩
  · simp [substituteVariables, svLoop, goReplace, buildReplacements, findMatch,
      cmdReplacement, trimSpace, goIsSpace, checkCmds, String.toList]
  · simp [substituteVariables, svLoop, goReplace, buildReplacements, findMatch,
      cmdReplacement, trimSpace, goIsSpace, checkCmdsRev, String.toList]

/-- Witness for C9 (amended): a prefix-free two-command table gives the
same substitution result in both iteration orders. -/
theorem substituteVariables_order_independent_witness :
    substituteVariables [("user", "bob")]
      [("aa", ⟨[], ["one"]⟩), ("bb", ⟨[], ["two"]⟩)] "go $aa $bb $user" =
    substituteVariables [("user", "bob")]
      [("bb", ⟨[], ["two"]⟩), ("aa", ⟨[], ["one"]⟩)] "go $aa $bb $user" :=
  substituteVariables_order_independent
    [("user", "bob")] [("user", "bob")]
    [("aa", ⟨[], ["one"]⟩), ("bb", ⟨[], ["two"]⟩)]
    [("bb", ⟨[], ["two"]⟩), ("aa", ⟨[], ["one"]⟩)]
    (List.Perm.refl _) (by decide) (by decide) "go $aa $bb $user"

/-! ### Claim C10: exactly one channel result per server -/

theorem sendAll_servers (err : Option String) (servers : List String) :
    (sendAll err servers).map (fun r => r.server) = servers := by
  unfold sendAll
  rw [List.map_map]
  have hcomp : ((fun r => r.server) ∘ fun s => ({ server := s, err := err } : result)) =
      fun s => s := rfl
  rw [hcomp]
  exact List.map_id servers

theorem runGuards_ne_none (sh : String → Bool) (vars : List (String × String))
    (cmds : List (String × Cmd)) (chk : String) (servers : List String)
    (verbose : Bool) :
    ∀ (ifs : List String) (needToRun : Bool),
      (∀ g ∈ ifs, ((copyCommands cmds).lookup g).isSome) →
      runGuards sh vars cmds chk servers verbose needToRun ifs ≠ none := by
  intro ifs
  induction ifs with
  | nil => intro needToRun _ h; exact Option.noConfusion h
  | cons g rest ih =>
    intro needToRun hdef h
    have hg := hdef g (by simp)
    rcases hl : (copyCommands cmds).lookup g with _ | c
    · rw [hl] at hg; simp at hg
    · rw [runGuards, hl] at h
      dsimp only at h
      rcases hsteps : runGuardSteps sh vars (copyCommands cmds) chk servers
          verbose needToRun c.Execs with r | r <;> rw [hsteps] at h
      · exact Option.noConfusion h
      · dsimp only at h
        rcases hrec : runGuards sh vars cmds chk servers verbose r.1 rest
            with _ | r2 <;> rw [hrec] at h
        · exact ih r.1 (fun g' hg' => hdef g' (by simp [hg'])) hrec
        · rcases r2 with e2 | o2 <;> exact Option.noConfusion h

theorem runMainLines_servers (sh : String → Bool)
    (vars : List (String × String)) (cmds : List (String × Cmd))
    (chk : String) (servers : List String) (verbose : Bool) :
    ∀ lines : List String,
      ((runMainLines sh vars cmds chk servers verbose lines).1).map
        (fun r => r.server) = servers := by
  intro lines
  induction lines with
  | nil => simp [runMainLines, sendAll_servers]
  | cons line rest ih =>
    rw [runMainLines]
    rcases hsub : substituteVariables vars cmds line with e | l'
    · exact sendAll_servers _ _
    · dsimp only
      rcases hrun : runSubLines sh vars cmds chk servers verbose
          ((splitNl l'.toList).map String.mk) with r | tr
      · exact sendAll_servers _ _
      · dsimp only
        exact ih

/-- C10: for every call to `runExecIfs` whose guard names are all defined
in the table (as the parser guarantees), exactly one result is delivered
on the channel per server of the group — one per server, in fact carrying
the servers in order — on every code path: guard-evaluation error, guards
all satisfied, substitution error, main-exec error, and full success
alike.  (A guard naming no command is the one excluded path: there the Go
code dereferences a nil map entry and panics, delivering nothing.) -/
theorem runExecIfs_one_result_per_server (sh : String → Bool)
    (vars : List (String × String)) (cmds : List (String × Cmd)) (cmd : Cmd)
    (chk : String) (servers : List String) (verbose : Bool)
    (hdef : ∀ g ∈ cmd.ExecIfs, ((copyCommands cmds).lookup g).isSome) :
    ∃ res tr, runExecIfs sh vars cmds cmd chk servers verbose = some (res, tr) ∧
      res.map (fun r => r.server) = servers := by
  unfold runExecIfs
  rcases hg : runGuards sh vars cmds chk servers verbose false cmd.ExecIfs
      with _ | r
  · exact absurd hg (runGuards_ne_none sh vars cmds chk servers verbose
      cmd.ExecIfs false hdef)
  · rcases r with e | o
    · exact ⟨sendAll (some e.1) servers, e.2, rfl, sendAll_servers _ _⟩
    · dsimp only
      by_cases hskip : (!o.1 && decide (cmd.ExecIfs.length > 0)) = true
      · rw [if_pos hskip]
        exact ⟨sendAll none servers, o.2, rfl, sendAll_servers _ _⟩
      · rw [if_neg hskip]
        refine ⟨(runMainLines sh vars cmds chk servers verbose cmd.Execs).1,
          o.2 ++ (runMainLines sh vars cmds chk servers verbose cmd.Execs).2,
          ?_, runMainLines_servers sh vars cmds chk servers verbose cmd.Execs⟩
        rfl

/-- Witness for C10: a concrete guarded command over two servers yields
exactly one result per server. -/
theorem runExecIfs_one_result_per_server_witness :
    ∃ res tr, runExecIfs (fun _ => true) []
        [("check", ⟨[], ["true"]⟩)] ⟨["check"], ["echo hi"]⟩ "c"
        ["h1", "h2"] false = some (res, tr) ∧
      res.map (fun r => r.server) = ["h1", "h2"] :=
  runExecIfs_one_result_per_server (fun _ => true) []
    [("check", ⟨[], ["true"]⟩)] ⟨["check"], ["echo hi"]⟩ "c"
    ["h1", "h2"] false (by decide)

/-! ### Claim C1: guard evaluation semantics -/

/-- The shell lines executed while evaluating a list of guards whose
steps all run without error: each guard's `Execs` lines in order, each
dispatched over the whole group. -/
def guardTrace (sh : String → Bool) (vars : List (String × String))
    (cmds : List (String × Cmd)) (chk : String) (servers : List String)
    (verbose : Bool) (ifs : List String) : List String :=
  (ifs.map (fun g =>
    match (copyCommands cmds).lookup g with
    | some c => (c.Execs.map (fun step =>
        (runExec sh vars (copyCommands cmds) step chk servers true verbose).2)).flatten
    | none => [])).flatten

theorem all_map_pass {α : Type} (f : α → runResult × List String) (l : List α) :
    (l.map f).all (fun r => r.1.pass) = l.all (fun x => (f x).1.pass) := by
  induction l with
  | nil => rfl
  | cons a l ih => simp [ih]

theorem foldl_and_pass (l : List (runResult × List String)) :
    ∀ b : Bool, l.foldl (fun p r => p && r.1.pass) b =
      (b && l.all (fun r => r.1.pass)) := by
  induction l with
  | nil => intro b; simp
  | cons r l ih =>
    intro b
    rw [List.foldl_cons, ih]
    simp [Bool.and_assoc]

theorem runGuardSteps_all_pass (sh : String → Bool)
    (vars : List (String × String)) (cmds2 : List (String × Cmd))
    (chk : String) (servers : List String) (verbose : Bool) :
    ∀ (steps : List String) (ntr : Bool),
      (∀ step ∈ steps,
        (runExec sh vars cmds2 step chk servers true verbose).1 = (true, none)) →
      runGuardSteps sh vars cmds2 chk servers verbose ntr steps =
        .ok (ntr, (steps.map (fun step =>
          (runExec sh vars cmds2 step chk servers true verbose).2)).flatten) := by
  intro steps
  induction steps with
  | nil => intro ntr _; rfl
  | cons step rest ih =>
    intro ntr hall
    have h1 := hall step (by simp)
    have hre : runExec sh vars cmds2 step chk servers true verbose =
        ((true, none), (runExec sh vars cmds2 step chk servers true verbose).2) := by
      rw [← h1]
    rw [runGuardSteps, hre]
    dsimp only
    simp only [Bool.not_true, Bool.or_false]
    rw [ih ntr (fun s hs => hall s (by simp [hs]))]
    simp

theorem runGuards_all_pass (sh : String → Bool)
    (vars : List (String × String)) (cmds : List (String × Cmd))
    (chk : String) (servers : List String) (verbose : Bool) :
    ∀ (ifs : List String) (ntr : Bool),
      (∀ g ∈ ifs, ∃ c, (copyCommands cmds).lookup g = some c ∧
        ∀ step ∈ c.Execs,
          (runExec sh vars (copyCommands cmds) step chk servers true verbose).1 =
            (true, none)) →
      runGuards sh vars cmds chk servers verbose ntr ifs =
        some (.ok (ntr, guardTrace sh vars cmds chk servers verbose ifs)) := by
  intro ifs
  induction ifs with
  | nil => intro ntr _; rfl
  | cons g rest ih =>
    intro ntr hall
    obtain ⟨c, hl, hsteps⟩ := hall g (by simp)
    rw [runGuards, hl]
    dsimp only
    rw [runGuardSteps_all_pass sh vars (copyCommands cmds) chk servers verbose
      c.Execs ntr hsteps]
    dsimp only
    rw [ih ntr (fun g' hg' => hall g' (by simp [hg']))]
    dsimp only
    unfold guardTrace
    rw [List.map_cons, List.flatten_cons, hl]

/-- C1: in guard mode a non-zero shell exit is not an error but only a
failed condition (whenever substitution succeeds, the per-host result
carries no error and its pass bit is exactly the shell's success); the
pass of a guard step over the group is the logical AND of the per-host
passes; and if at least one guard was declared and every guard step
passed on every host with no error, every host in the group is reported
as success and the main `Execs` are not run (the outcome is the same for
any main `Execs`, and the executed lines are exactly the guard lines). -/
theorem runExecIfs_guard_semantics :
    (∀ (sh : String → Bool) vars cmds cmd chk server verbose c',
      substituteVariables vars
          (mapInsert (copyCommands cmds) "server" ⟨[], [server]⟩) cmd = .ok c' →
      (runCmd sh vars cmds cmd chk server true verbose).1 = ⟨sh c', none⟩) ∧
    (∀ (sh : String → Bool) vars cmds c chk servers execIf verbose,
      (runExec sh vars cmds c chk servers execIf verbose).1.1 =
        servers.all (fun server =>
          ((runCmd sh vars (mapInsert (copyCommands cmds) "checksum" ⟨[], [chk]⟩)
            c chk server execIf verbose).1).pass)) ∧
    (∀ (sh : String → Bool) vars cmds (cmd : Cmd) chk servers verbose,
      cmd.ExecIfs ≠ [] →
      (∀ g ∈ cmd.ExecIfs, ∃ c, (copyCommands cmds).lookup g = some c ∧
        ∀ step ∈ c.Execs,
          (runExec sh vars (copyCommands cmds) step chk servers true verbose).1 =
            (true, none)) →
      runExecIfs sh vars cmds cmd chk servers verbose =
        some (sendAll none servers,
          guardTrace sh vars cmds chk servers verbose cmd.ExecIfs) ∧
      ∀ execs', runExecIfs sh vars cmds ⟨cmd.ExecIfs, execs'⟩ chk servers verbose =
        runExecIfs sh vars cmds cmd chk servers verbose) := by
  refine ⟨?_, ?_, ?_⟩
  · intro sh vars cmds cmd chk server verbose c' hsub
    unfold runCmd
    dsimp only
    rw [hsub]
    show (if sh c' = true then (({ pass := true, error := none } : runResult), [c'])
        else if true = true then ({ pass := false, error := none }, [c'])
        else ({ pass := false, error := some ("run " ++ c' ++ ": exit status 1") },
          [c'])).1 =
      { pass := sh c', error := none }
    by_cases hsh : sh c' = true
    · rw [if_pos hsh, hsh]
    · rw [if_neg hsh, if_pos rfl]
      rw [Bool.not_eq_true] at hsh
      rw [hsh]
  · intro sh vars cmds c chk servers execIf verbose
    unfold runExec
    dsimp only
    rw [foldl_and_pass]
    simp only [Bool.true_and]
    exact all_map_pass _ servers
  · intro sh vars cmds cmd chk servers verbose hne hall
    have hcond : (!(false : Bool) && decide (cmd.ExecIfs.length > 0)) = true := by
      simp [List.length_pos, hne]
    have hrun : runExecIfs sh vars cmds cmd chk servers verbose =
        some (sendAll none servers,
          guardTrace sh vars cmds chk servers verbose cmd.ExecIfs) := by
      unfold runExecIfs
      rw [runGuards_all_pass sh vars cmds chk servers verbose cmd.ExecIfs false hall]
      dsimp only
      rw [if_pos hcond]
    refine ⟨hrun, ?_⟩
    intro execs'
    rw [hrun]
    unfold runExecIfs
    rw [runGuards_all_pass sh vars cmds chk servers verbose cmd.ExecIfs false hall]
    dsimp only
    rw [if_pos hcond]

/-- Witness for C1: with a passing guard `check` over two servers, the
group is reported all-success and only the guard's line is executed,
whatever the main `Execs` are. -/
theorem runExecIfs_guard_semantics_witness :
    runExecIfs (fun _ => true) [] [("check", ⟨[], ["true"]⟩)]
        ⟨["check"], ["echo hi"]⟩ "c" ["h1", "h2"] false =
      some (sendAll none ["h1", "h2"],
        guardTrace (fun _ => true) [] [("check", ⟨[], ["true"]⟩)] "c"
          ["h1", "h2"] false ["check"]) :=
  (runExecIfs_guard_semantics.2.2 (fun _ => true) [] [("check", ⟨[], ["true"]⟩)]
    ⟨["check"], ["echo hi"]⟩ "c" ["h1", "h2"] false (by decide)
    (by
      intro g hg
      simp only [List.mem_singleton] at hg
      subst hg
      refine ⟨⟨[], ["true"]⟩, rfl, ?_⟩
      intro step hs
      simp only [List.mem_singleton] at hs
      subst hs
      simp [runExec, runCmd, mapInsert, copyCommands, substituteVariables,
        svLoop, goReplace, buildReplacements, findMatch, cmdReplacement,
        trimSpace, goIsSpace, String.toList])).1

/-! ### Claim C2: main-exec semantics -/

/-- Once `needToRun` is set it is never cleared by the remaining steps of
a guard: a successful `runGuardSteps` that started with the flag set
still reports it set. -/
theorem runGuardSteps_true_stays (sh : String → Bool)
    (vars : List (String × String)) (cmds : List (String × Cmd))
    (chk : String) (servers : List String) (verbose : Bool) :
    ∀ (steps : List String) (r : Bool × List String),
      runGuardSteps sh vars cmds chk servers verbose true steps = .ok r →
      r.1 = true := by
  intro steps
  induction steps with
  | nil =>
    intro r h
    rw [runGuardSteps] at h
    rw [← Except.ok.inj h]
  | cons step rest ih =>
    intro r h
    rw [runGuardSteps] at h
    rcases hre : runExec sh vars cmds step chk servers true verbose with
      ⟨⟨ok, err⟩, tr⟩
    rw [hre] at h
    cases err with
    | some e => exact Except.noConfusion h
    | none =>
      dsimp only at h
      rcases hrec : runGuardSteps sh vars cmds chk servers verbose
          (true || !ok) rest with r2 | r2
      · rw [hrec] at h
        exact Except.noConfusion h
      · rw [hrec] at h
        dsimp only at h
        rw [← Except.ok.inj h]
        exact ih r2 hrec

/-- A guard step whose group evaluation reports a failed pass without an
error forces `needToRun`, whatever the other steps of the guard report. -/
theorem runGuardSteps_failed_sets (sh : String → Bool)
    (vars : List (String × String)) (cmds : List (String × Cmd))
    (chk : String) (servers : List String) (verbose : Bool) :
    ∀ (steps : List String) (n : Bool) (step : String)
      (r : Bool × List String),
      step ∈ steps →
      (runExec sh vars cmds step chk servers true verbose).1 =
        (false, none) →
      runGuardSteps sh vars cmds chk servers verbose n steps = .ok r →
      r.1 = true := by
  intro steps
  induction steps with
  | nil =>
    intro n step r hmem
    exact absurd hmem (List.not_mem_nil step)
  | cons s rest ih =>
    intro n step r hmem hfail h
    rw [runGuardSteps] at h
    rcases hre : runExec sh vars cmds s chk servers true verbose with
      ⟨⟨ok, err⟩, tr⟩
    rw [hre] at h
    cases err with
    | some e => exact Except.noConfusion h
    | none =>
      dsimp only at h
      rcases hrec : runGuardSteps sh vars cmds chk servers verbose
          (n || !ok) rest with r2 | r2
      · rw [hrec] at h
        exact Except.noConfusion h
      · rw [hrec] at h
        dsimp only at h
        rw [← Except.ok.inj h]
        rcases List.mem_cons.mp hmem with heq | hmem2
        · subst heq
          rw [hre] at hfail
          simp only [Prod.mk.injEq] at hfail
          rw [hfail.1] at hrec
          simp only [Bool.not_false, Bool.or_true] at hrec
          exact runGuardSteps_true_stays sh vars cmds chk servers verbose
            rest r2 hrec
        · exact ih (n || !ok) step r2 hmem2 hfail hrec

/-- Once `needToRun` is set it is never cleared by the remaining guards:
a successful `runGuards` that started with the flag set still reports it
set. -/
theorem runGuards_true_stays (sh : String → Bool)
    (vars : List (String × String)) (cmds : List (String × Cmd))
    (chk : String) (servers : List String) (verbose : Bool) :
    ∀ (gs : List String) (r : Bool × List String),
      runGuards sh vars cmds chk servers verbose true gs = some (.ok r) →
      r.1 = true := by
  intro gs
  induction gs with
  | nil =>
    intro r h
    rw [runGuards] at h
    rw [← Except.ok.inj (Option.some.inj h)]
  | cons g rest ih =>
    intro r h
    rw [runGuards] at h
    rcases hlk : (copyCommands cmds).lookup g with _ | c
    · rw [hlk] at h
      exact Option.noConfusion h
    · rw [hlk] at h
      dsimp only at h
      rcases hgs : runGuardSteps sh vars (copyCommands cmds) chk servers
          verbose true c.Execs with r1 | r1
      · rw [hgs] at h
        exact Except.noConfusion (Option.some.inj h)
      · rw [hgs] at h
        dsimp only at h
        have h1 : r1.1 = true :=
          runGuardSteps_true_stays sh vars (copyCommands cmds) chk servers
            verbose c.Execs r1 hgs
        rw [h1] at h
        rcases hrg : runGuards sh vars cmds chk servers verbose true rest
            with _ | r2
        · rw [hrg] at h
          exact Option.noConfusion h
        · rcases r2 with r2 | r2
          · rw [hrg] at h
            exact Except.noConfusion (Option.some.inj h)
          · rw [hrg] at h
            dsimp only at h
            rw [← Except.ok.inj (Option.some.inj h)]
            exact ih r2 hrg

/-- A failed guard step of any declared guard forces `needToRun` through
the whole first loop of `runExecIfs`: if the guard name resolves to a
command one of whose steps reports a failed pass without an error, a
successful `runGuards` reports the flag set. -/
theorem runGuards_failed_sets (sh : String → Bool)
    (vars : List (String × String)) (cmds : List (String × Cmd))
    (chk : String) (servers : List String) (verbose : Bool) :
    ∀ (gs : List String) (n : Bool) (g : String) (c : Cmd) (step : String)
      (r : Bool × List String),
      g ∈ gs →
      (copyCommands cmds).lookup g = some c →
      step ∈ c.Execs →
      (runExec sh vars (copyCommands cmds) step chk servers true
        verbose).1 = (false, none) →
      runGuards sh vars cmds chk servers verbose n gs = some (.ok r) →
      r.1 = true := by
  intro gs
  induction gs with
  | nil =>
    intro n g c step r hmem
    exact absurd hmem (List.not_mem_nil g)
  | cons g0 rest ih =>
    intro n g c step r hmem hlk hstep hfail h
    rw [runGuards] at h
    rcases hlk0 : (copyCommands cmds).lookup g0 with _ | c0
    · rw [hlk0] at h
      exact Option.noConfusion h
    · rw [hlk0] at h
      dsimp only at h
      rcases hgs : runGuardSteps sh vars (copyCommands cmds) chk servers
          verbose n c0.Execs with r1 | r1
      · rw [hgs] at h
        exact Except.noConfusion (Option.some.inj h)
      · rw [hgs] at h
        dsimp only at h
        rcases hrg : runGuards sh vars cmds chk servers verbose r1.1 rest
            with _ | r2
        · rw [hrg] at h
          exact Option.noConfusion h
        · rcases r2 with r2 | r2
          · rw [hrg] at h
            exact Except.noConfusion (Option.some.inj h)
          · rw [hrg] at h
            dsimp only at h
            rw [← Except.ok.inj (Option.some.inj h)]
            rcases List.mem_cons.mp hmem with heq | hmem2
            · subst heq
              rw [hlk] at hlk0
              have hc : c = c0 := Option.some.inj hlk0
              have h1 : r1.1 = true := by
                refine runGuardSteps_failed_sets sh vars (copyCommands cmds)
                  chk servers verbose c0.Execs n step r1 ?_ hfail hgs
                rw [← hc]
                exact hstep
              rw [h1] at hrg
              exact runGuards_true_stays sh vars cmds chk servers verbose
                rest r2 hrg
            · exact ih r1.1 g c step r2 hmem2 hlk hstep hfail hrg

/-- C2: when no guards were declared the main `Execs` are run (the result
of `runExecIfs` is exactly the main loop's result), and likewise when
guards were declared but some guard step failed: a guard step whose
group evaluation reports a failed pass without an error forces
`needToRun`, and with `needToRun` set after guard evaluation the skip is
not taken and `runExecIfs` runs exactly the main loop (the guard trace
preceding the main trace); each line is substitution-expanded, a
substitution error aborting immediately; the expanded line is split on
embedded newlines into sub-lines and each sub-line is dispatched across
all hosts of the group (the executed lines are the per-host substituted
lines in group order); a non-zero exit in main mode is a real error on
that host; a failing sub-line reports the error to every host at once
and aborts all remaining lines of the group; and a successful line
continues with the remaining lines in declared order. -/
theorem runExecIfs_main_exec_semantics :
    (∀ (sh : String → Bool) vars cmds cmd chk server verbose c',
      substituteVariables vars
          (mapInsert (copyCommands cmds) "server" ⟨[], [server]⟩) cmd = .ok c' →
      sh c' = false →
      (runCmd sh vars cmds cmd chk server false verbose).1 =
        ⟨false, some ("run " ++ c' ++ ": exit status 1")⟩) ∧
    (∀ (sh : String → Bool) vars cmds execs chk servers verbose,
      runExecIfs sh vars cmds ⟨[], execs⟩ chk servers verbose =
        some (runMainLines sh vars cmds chk servers verbose execs)) ∧
    (∀ (sh : String → Bool) vars cmds line rest chk servers verbose e,
      substituteVariables vars cmds line = .error e →
      runMainLines sh vars cmds chk servers verbose (line :: rest) =
        (sendAll (some e) servers, [])) ∧
    (∀ (sh : String → Bool) vars cmds line rest chk servers verbose l' e tr,
      substituteVariables vars cmds line = .ok l' →
      runSubLines sh vars cmds chk servers verbose
          ((splitNl l'.toList).map String.mk) = .error (e, tr) →
      runMainLines sh vars cmds chk servers verbose (line :: rest) =
        (sendAll (some e) servers, tr)) ∧
    (∀ (sh : String → Bool) vars cmds line rest chk servers verbose l' tr,
      substituteVariables vars cmds line = .ok l' →
      runSubLines sh vars cmds chk servers verbose
          ((splitNl l'.toList).map String.mk) = .ok tr →
      runMainLines sh vars cmds chk servers verbose (line :: rest) =
        ((runMainLines sh vars cmds chk servers verbose rest).1,
          tr ++ (runMainLines sh vars cmds chk servers verbose rest).2)) ∧
    (∀ (sh : String → Bool) vars cmds c chk servers execIf verbose,
      (runExec sh vars cmds c chk servers execIf verbose).2 =
        (servers.map (fun server =>
          (runCmd sh vars (mapInsert (copyCommands cmds) "checksum" ⟨[], [chk]⟩)
            c chk server execIf verbose).2)).flatten) ∧
    (∀ (sh : String → Bool) vars cmds execIfs execs chk servers verbose rtr,
      runGuards sh vars cmds chk servers verbose false execIfs =
        some (.ok (true, rtr)) →
      runExecIfs sh vars cmds ⟨execIfs, execs⟩ chk servers verbose =
        some ((runMainLines sh vars cmds chk servers verbose execs).1,
          rtr ++ (runMainLines sh vars cmds chk servers verbose execs).2)) ∧
    (∀ (sh : String → Bool) vars cmds (cmd : Cmd) chk servers verbose g c
        step r,
      g ∈ cmd.ExecIfs →
      cmds.lookup g = some c →
      step ∈ c.Execs →
      (runExec sh vars cmds step chk servers true verbose).1 =
        (false, none) →
      runGuards sh vars cmds chk servers verbose false cmd.ExecIfs =
        some (.ok r) →
      r.1 = true) := by
  refine ⟨?_, ?_, ?_, ?_, ?_, ?_, ?_, ?_⟩
  · intro sh vars cmds cmd chk server verbose c' hsub hsh
    unfold runCmd
    dsimp only
    rw [hsub]
    show (if sh c' = true then (({ pass := true, error := none } : runResult), [c'])
        else if false = true then ({ pass := false, error := none }, [c'])
        else ({ pass := false, error := some ("run " ++ c' ++ ": exit status 1") },
          [c'])).1 =
      { pass := false, error := some ("run " ++ c' ++ ": exit status 1") }
    rw [if_neg (by rw [hsh]; exact Bool.false_ne_true), if_neg (by simp)]
  · intro sh vars cmds execs chk servers verbose
    unfold runExecIfs
    show (match runGuards sh vars cmds chk servers verbose false [] with
        | none => none
        | some (.error r) => some (sendAll (some r.1) servers, r.2)
        | some (.ok r) =>
          if (!r.1 && decide (([] : List String).length > 0)) = true
          then some (sendAll none servers, r.2)
          else match runMainLines sh vars cmds chk servers verbose execs with
            | (res, tr2) => some (res, r.2 ++ tr2)) =
      some (runMainLines sh vars cmds chk servers verbose execs)
    rw [show runGuards sh vars cmds chk servers verbose false [] =
        some (.ok (false, [])) from rfl]
    dsimp only
    rw [if_neg (by simp)]
    rcases hm : runMainLines sh vars cmds chk servers verbose execs with ⟨res, tr2⟩
    dsimp only
    simp
  · intro sh vars cmds line rest chk servers verbose e hsub
    rw [runMainLines, hsub]
  · intro sh vars cmds line rest chk servers verbose l' e tr hsub hrun
    rw [runMainLines, hsub]
    dsimp only
    rw [hrun]
  · intro sh vars cmds line rest chk servers verbose l' tr hsub hrun
    rw [runMainLines, hsub]
    dsimp only
    rw [hrun]
  · intro sh vars cmds c chk servers execIf verbose
    unfold runExec
    dsimp only
    rw [List.map_map]
    rfl
  · intro sh vars cmds execIfs execs chk servers verbose rtr hg
    unfold runExecIfs
    dsimp only
    rw [hg]
    dsimp only
    rw [if_neg (by simp)]
  · intro sh vars cmds cmd chk servers verbose g c step r hmem hlk hstep
      hfail hg
    exact runGuards_failed_sets sh vars cmds chk servers verbose cmd.ExecIfs
      false g c step r hmem hlk hstep hfail hg

/-- Witness for C2: a failing command in main mode yields a real error
for the host, and a declared guard whose single step fails in guard mode
makes `runExecIfs` run the main `Execs` (the main loop's result, with
the guard's executed line preceding the main trace). -/
theorem runExecIfs_main_exec_semantics_witness :
    (runCmd (fun _ => false) [] [] "boom" "c" "h1" false false).1 =
      ⟨false, some ("run " ++ "boom" ++ ": exit status 1")⟩ ∧
    runExecIfs (fun _ => false) [] [("chk", ⟨[], ["x"]⟩)] ⟨["chk"], ["go"]⟩
        "c" ["h1"] false =
      some ((runMainLines (fun _ => false) [] [("chk", ⟨[], ["x"]⟩)] "c"
          ["h1"] false ["go"]).1,
        ["x"] ++ (runMainLines (fun _ => false) [] [("chk", ⟨[], ["x"]⟩)] "c"
          ["h1"] false ["go"]).2) :=
  ⟨runExecIfs_main_exec_semantics.1 (fun _ => false) [] [] "boom" "c" "h1"
    false "boom"
    (by simp [substituteVariables, svLoop, goReplace, buildReplacements,
      findMatch, cmdReplacement, trimSpace, goIsSpace, mapInsert, copyCommands,
      String.toList])
    rfl,
   runExecIfs_main_exec_semantics.2.2.2.2.2.2.1 (fun _ => false) []
    [("chk", ⟨[], ["x"]⟩)] ["chk"] ["go"] "c" ["h1"] false ["x"]
    (by simp [runGuards, runGuardSteps, runExec, runCmd, substituteVariables,
      svLoop, goReplace, buildReplacements, findMatch, cmdReplacement,
      trimSpace, goIsSpace, mapInsert, copyCommands, String.toList])⟩

/-! ### Claim C8: comment handling -/

/-- Test for a token that ends a physical line (newline or EOF; the zero
token of a closed channel also stops the skip). -/
def endsLine (t : token) : Bool :=
  match t.typ with
  | .newline => true
  | .eof => true
  | .error => true
  | _ => false

/-- Modelled from the spec: the body loop of the repository's current
`commandControl` with comment support.  The `commandControl` under
src/parser.go predates comment support and rejects a comment token with
an "unexpected" error, while the README's example Upfile and the spec
document `#` comments inside command bodies; the comment-aware revision
is not under src/.  Per the spec, on receipt of a comment token the
parser discards the rest of the physical line — the remaining tokens up
to but not including the newline — without terminating the command.  All
other cases are exactly those of `collectBody`. -/
def collectBodyComment (indented : Bool) (line : String)
    (execs : List String) :
    List token → Except String (List String × token × List token)
  | [] =>
    .error ("unexpected " ++ toString zeroToken.typ.code ++ " " ++
      goQuote zeroToken.val)
  | t :: ts =>
    match t.typ with
    | .newline =>
      collectBodyComment false "" (if line ≠ "" then execs ++ [line] else execs) ts
    | .tab =>
      if indented then
        match ts with
        | [] => .error "unexpected double indent"
        | t2 :: ts2 =>
          if t2.typ = tokenType.newline then
            collectBodyComment indented line execs (t2 :: ts2)
          else .error "unexpected double indent"
      else collectBodyComment true line execs ts
    | .text =>
      if !indented then .ok (execs, t, ts)
      else collectBodyComment indented (line ++ t.val) execs ts
    | .space =>
      if !indented then .ok (execs, t, ts)
      else collectBodyComment indented (line ++ t.val) execs ts
    | .comment => collectBodyComment indented line execs (ts.dropWhile (fun t2 => !endsLine t2))
    | .eof => .ok (execs, t, ts)
    | _ =>
      .error ("unexpected " ++ toString t.typ.code ++ " " ++ goQuote t.val)
  termination_by ts => ts.length
  decreasing_by
  · simp
  · simp
  · simp
  · simp
  · simp
  · have := dropWhile_length_le (fun t2 => !endsLine t2) ts
    simp only [List.length_cons]
    omega

theorem dropWhile_all_append {α : Type} (p : α → Bool) (l1 : List α)
    (x : α) (l2 : List α) (h1 : ∀ a ∈ l1, p a) (hx : ¬p x) :
    (l1 ++ x :: l2).dropWhile p = x :: l2 := by
  induction l1 with
  | nil => simp [List.dropWhile, hx]
  | cons a l1 ih =>
    rw [List.cons_append, List.dropWhile_cons]
    rw [if_pos (h1 a (by simp))]
    exact ih (fun a ha => h1 a (by simp [ha]))

/-- C8 (counterexample): the tokenizer does not consume the remainder of
the line after a `#`: it emits a comment token and keeps tokenizing the
line (here a text token `b` follows the comment token before the
newline); and the parser revision under src/parser.go does not discard
the rest of the line on a comment token inside a body line — it fails
with an "unexpected" error. -/
theorem comment_tokenizer_counterexample :
    tokenize "a #b\n" =
      [⟨.text, "a"⟩, ⟨.space, " "⟩, ⟨.comment, "#"⟩, ⟨.text, "b"⟩,
       ⟨.newline, "\n"⟩, ⟨.eof, ""⟩] ∧
    parse "c\n\ta #b\n" = .error ("unexpected 6 " ++ goQuote "#") := by
  constructor
  · simp [tokenize, lexText, String.toList]
  · simp [parse, parseRaw, tokenize, lexText, nextNonSpace, parseLoop,
      commandControl, collectExecIfs, collectBody, validateConfig, mapInsert,
      zeroToken, goQuote, tokenType.code]
    rfl

/-- C8 (amended): at a `#` the tokenizer emits a comment token and keeps
tokenizing the rest of the line; discarding the comment is the parser's
job, and in the comment-aware body loop (modelled from the spec, the
comment-aware `commandControl` not being under src/) a comment token
inside a body line causes all remaining tokens of the physical line, up
to but not including the newline, to be discarded without terminating
the command or reporting an error: parsing resumes at the newline, and a
body line `a #b` contributes the `Exec` text accumulated before the
comment. -/
theorem collectBodyComment_skips_comment :
    (∀ (indented : Bool) (line : String) (execs : List String) (v nl : String)
        (junk ts : List token),
      (∀ t ∈ junk, ¬endsLine t) →
      collectBodyComment indented line execs
          (⟨tokenType.comment, v⟩ :: junk ++ ⟨tokenType.newline, nl⟩ :: ts) =
        collectBodyComment indented line execs (⟨tokenType.newline, nl⟩ :: ts)) ∧
    collectBodyComment false "" [] (tokenize "\ta #b\n\tc\n") =
      .ok (["a ", "c"], ⟨.eof, ""⟩, []) := by
  constructor
  · intro indented line execs v nl junk ts hjunk
    have hdw : (junk ++ ⟨tokenType.newline, nl⟩ :: ts).dropWhile
        (fun t2 => !endsLine t2) = ⟨tokenType.newline, nl⟩ :: ts :=
      dropWhile_all_append _ junk _ ts
        (fun t ht => by simp [hjunk t ht]) (by simp [endsLine])
    cases hj : junk ++ ⟨tokenType.newline, nl⟩ :: ts with
    | nil => exact absurd hj (by simp)
    | cons u us =>
      rw [List.cons_append, hj, collectBodyComment.eq_3]
      dsimp only
      rw [← hj, hdw]
  · simp [tokenize, lexText, String.toList, collectBodyComment, endsLine,
      zeroToken, goQuote]

/-- Witness for C8 (amended): the concrete body line `\ta #b` discards
the text token `b` after the comment token and continues at the newline. -/
theorem collectBodyComment_skips_comment_witness :
    collectBodyComment true "a " []
        (⟨tokenType.comment, "#"⟩ :: [⟨tokenType.text, "b"⟩] ++
          ⟨tokenType.newline, "\n"⟩ :: [⟨tokenType.eof, ""⟩]) =
      collectBodyComment true "a " []
        (⟨tokenType.newline, "\n"⟩ :: [⟨tokenType.eof, ""⟩]) :=
  collectBodyComment_skips_comment.1 true "a " [] "#" "\n"
    [⟨tokenType.text, "b"⟩] [⟨tokenType.eof, ""⟩] (by decide)

end Up
